import Mathlib

/-!
Verification development for the redis-like key-value store
(`api/hashmap_engine.py`, `api/redislite.py`, `api/persistence.py`,
`api/replication_psync.py`, `api/tcp_server.py`).

Python dictionaries are modelled as insertion-ordered association lists
(`AList`), matching CPython `dict` semantics: assignment to an existing key
replaces the value in place, assignment to a fresh key appends, `pop` removes
the key's entry, iteration follows insertion order.  Monotonic time is an
explicit `Nat` argument to every operation (the source calls
`time.monotonic()`; one instant per operation is used).  Values are the
strings the RESP surface stores.  IO, locks and latency bookkeeping carry no
data relevant to the claims and are not modelled.
-/

set_option autoImplicit false

namespace RedisKV

/-- Insertion-ordered map from string keys, the model of a Python `dict`. -/
abbrev AList (V : Type) := List (String × V)

/-- `d.get(k)` / `d[k]`: first (unique, in reachable states) binding of `k`. -/
def alGet {V : Type} : AList V → String → Option V
  | [], _ => none
  | (k', v') :: t, k => if k' = k then some v' else alGet t k

/-- `d[k] = v`: replace in place if present, else append (CPython order). -/
def alSet {V : Type} : AList V → String → V → AList V
  | [], k, v => [(k, v)]
  | (k', v') :: t, k, v => if k' = k then (k, v) :: t else (k', v') :: alSet t k v

/-- `d.pop(k, None)`: drop the binding of `k` (the first, if duplicated). -/
def alErase {V : Type} : AList V → String → AList V
  | [], _ => []
  | (k', v') :: t, k => if k' = k then t else (k', v') :: alErase t k

/-- The key list, in iteration order. -/
def alKeys {V : Type} (l : AList V) : List String := l.map Prod.fst

@[simp] theorem alGet_nil {V : Type} (k : String) : alGet ([] : AList V) k = none := rfl

@[simp] theorem alKeys_nil {V : Type} : alKeys ([] : AList V) = [] := rfl

@[simp] theorem alKeys_cons {V : Type} (k : String) (v : V) (t : AList V) :
    alKeys ((k, v) :: t) = k :: alKeys t := rfl

theorem alGet_cons {V : Type} (k' : String) (v' : V) (t : AList V) (k : String) :
    alGet ((k', v') :: t) k = if k' = k then some v' else alGet t k := rfl

@[simp] theorem alGet_alSet {V : Type} (l : AList V) (k j : String) (v : V) :
    alGet (alSet l k v) j = if k = j then some v else alGet l j := by
  induction l with
  | nil => simp [alSet, alGet]
  | cons p t ih =>
    obtain ⟨k', v'⟩ := p
    by_cases hk : k' = k
    · subst hk
      simp only [alSet, if_pos rfl, alGet]
      by_cases hj : k' = j <;> simp [hj]
    · simp only [alSet, if_neg hk, alGet]
      by_cases hj : k' = j
      · subst hj
        have h1 : ¬ k = k' := fun h => hk h.symm
        simp [h1]
      · simp [hj, ih]

theorem alGet_alErase_ne {V : Type} (l : AList V) (k j : String) (h : j ≠ k) :
    alGet (alErase l k) j = alGet l j := by
  induction l with
  | nil => simp [alErase]
  | cons p t ih =>
    obtain ⟨k', v'⟩ := p
    by_cases hk : k' = k
    · subst hk
      have h1 : ¬ k' = j := fun he => h he.symm
      simp [alErase, alGet, h1]
    · simp only [alErase, if_neg hk, alGet]
      by_cases hj : k' = j
      · simp [hj]
      · simp [hj, ih]

theorem mem_alKeys_iff_isSome {V : Type} (l : AList V) (k : String) :
    k ∈ alKeys l ↔ (alGet l k).isSome := by
  induction l with
  | nil => simp [alGet]
  | cons p t ih =>
    obtain ⟨k', v'⟩ := p
    by_cases hk : k' = k
    · simp [alGet, hk]
    · have h1 : ¬ k = k' := fun h => hk h.symm
      simp only [alKeys_cons, List.mem_cons, alGet, if_neg hk]
      constructor
      · intro h
        rcases h with h | h
        · exact absurd h h1
        · exact ih.mp h
      · intro h
        exact Or.inr (ih.mpr h)

theorem alGet_alErase_self {V : Type} (l : AList V) (k : String)
    (h : (alKeys l).Nodup) : alGet (alErase l k) k = none := by
  induction l with
  | nil => simp [alErase]
  | cons p t ih =>
    obtain ⟨k', v'⟩ := p
    rw [alKeys_cons, List.nodup_cons] at h
    by_cases hk : k' = k
    · subst hk
      simp only [alErase, if_pos rfl]
      rcases ho : alGet t k' with _ | v
      · exact ho
      · exact absurd ((mem_alKeys_iff_isSome t k').mpr (by simp [ho])) h.1
    · simp only [alErase, if_neg hk, alGet, if_neg hk]
      exact ih h.2

theorem alKeys_alErase_sublist {V : Type} (l : AList V) (k : String) :
    List.Sublist (alKeys (alErase l k)) (alKeys l) := by
  induction l with
  | nil => simp [alErase]
  | cons p t ih =>
    obtain ⟨k', v'⟩ := p
    by_cases hk : k' = k
    · simp only [alErase, if_pos hk, alKeys_cons]
      exact List.sublist_cons_self _ _
    · simp only [alErase, if_neg hk, alKeys_cons]
      exact ih.cons₂ _

theorem alKeys_alErase_nodup {V : Type} (l : AList V) (k : String)
    (h : (alKeys l).Nodup) : (alKeys (alErase l k)).Nodup :=
  (alKeys_alErase_sublist l k).nodup h

theorem alKeys_alSet_nodup {V : Type} (l : AList V) (k : String) (v : V)
    (h : (alKeys l).Nodup) : (alKeys (alSet l k v)).Nodup := by
  induction l with
  | nil => simp [alSet]
  | cons p t ih =>
    obtain ⟨k', v'⟩ := p
    rw [alKeys_cons, List.nodup_cons] at h
    by_cases hk : k' = k
    · subst hk
      simpa [alSet, List.nodup_cons] using h
    · simp only [alSet, if_neg hk, alKeys_cons, List.nodup_cons]
      refine ⟨fun hmem => ?_, ih h.2⟩
      rw [mem_alKeys_iff_isSome] at hmem
      rw [alGet_alSet] at hmem
      by_cases he : k = k'
      · exact hk he.symm
      · rw [if_neg he] at hmem
        exact h.1 ((mem_alKeys_iff_isSome t k').mpr hmem)

theorem not_mem_alKeys_alErase_self {V : Type} (l : AList V) (k : String)
    (h : (alKeys l).Nodup) : k ∉ alKeys (alErase l k) := by
  rw [mem_alKeys_iff_isSome, alGet_alErase_self l k h]
  simp

/-!
## Persistence layer (`api/persistence.py`)

Byte strings are `List Nat` (byte values); Python `str` values are
`List Nat` of Unicode code points.  The JSON emitted by
`AOFCommand.to_json` (`json.dumps` with its defaults: `ensure_ascii=True`,
separators `", "` and `": "`, `dataclasses.asdict` field order) is pure
ASCII, so its UTF-8 encoding is the identity on the code-point list.
`timestamp` is a float in the source (`time.time()`); float formatting is
outside the embedding and the field is modelled as an integer, serialized
like a JSON int.  `value` is modelled as the optional string the RESP
surface stores.
-/

/-- `AOFCommand` of `persistence.py` (dataclass field order preserved). -/
structure AOFCommand where
  command : List Nat
  key : List Nat
  value : Option (List Nat)
  ttl : Option Int
  timestamp : Int
deriving DecidableEq

/-- Lowercase hex digit, as emitted by `json.dumps` for `\uXXXX` escapes. -/
def hexDigitChar (m : Nat) : Nat := if m < 10 then 48 + m else 87 + m

/-- Four lowercase hex digits of `n % 0x10000`, most significant first. -/
def hex4 (n : Nat) : List Nat :=
  [hexDigitChar (n / 4096 % 16), hexDigitChar (n / 256 % 16),
   hexDigitChar (n / 16 % 16), hexDigitChar (n % 16)]

/-- CPython `json.encoder` escaping with `ensure_ascii=True`: `"` and `\`
get a backslash, the five control shorthands `\b \t \n \f \r` are used,
any other char outside `0x20..0x7e` becomes `\uXXXX` (a surrogate pair for
code points beyond `0xFFFF`). -/
def escapeChar (c : Nat) : List Nat :=
  if c = 34 then [92, 34]
  else if c = 92 then [92, 92]
  else if c = 8 then [92, 98]
  else if c = 9 then [92, 116]
  else if c = 10 then [92, 110]
  else if c = 12 then [92, 102]
  else if c = 13 then [92, 114]
  else if c < 32 then 92 :: 117 :: hex4 c
  else if c ≤ 126 then [c]
  else if c < 65536 then 92 :: 117 :: hex4 c
  else
    (92 :: 117 :: hex4 (55296 + (c - 65536) / 1024)) ++
      (92 :: 117 :: hex4 (56320 + (c - 65536) % 1024))

/-- Escape every character of a string body. -/
def escString : List Nat → List Nat
  | [] => []
  | c :: t => escapeChar c ++ escString t

/-- A JSON string literal: quote, escaped body, quote. -/
def serStr (s : List Nat) : List Nat := 34 :: (escString s ++ [34])

/-- Decimal digits of `n` (big-endian), as `json.dumps` prints a non-negative
int. -/
def serNat (n : Nat) : List Nat :=
  if n = 0 then [48] else (Nat.digits 10 n).reverse.map (fun d => d + 48)

/-- `json.dumps` rendering of an int (optional minus sign). -/
def serInt (i : Int) : List Nat :=
  if i < 0 then 45 :: serNat i.natAbs else serNat i.natAbs

/-- ASCII bytes of the text `null`. -/
def chunkNull : List Nat := [110, 117, 108, 108]

/-- ASCII bytes of the object opener up to the first colon-space:
the text `{"command": `. -/
def chunkObjHead : List Nat := [123, 34, 99, 111, 109, 109, 97, 110, 100, 34, 58, 32]

/-- ASCII bytes of the text `, "key": `. -/
def chunkKey : List Nat := [44, 32, 34, 107, 101, 121, 34, 58, 32]

/-- ASCII bytes of the text `, "value": `. -/
def chunkValue : List Nat := [44, 32, 34, 118, 97, 108, 117, 101, 34, 58, 32]

/-- ASCII bytes of the text `, "ttl": `. -/
def chunkTtl : List Nat := [44, 32, 34, 116, 116, 108, 34, 58, 32]

/-- ASCII bytes of the text `, "timestamp": `. -/
def chunkTimestamp : List Nat := [44, 32, 34, 116, 105, 109, 101, 115, 116, 97, 109, 112, 34, 58, 32]

/-- ASCII bytes of the closing brace. -/
def chunkClose : List Nat := [125]

def serOptStr : Option (List Nat) → List Nat
  | none => chunkNull
  | some s => serStr s

def serOptInt : Option Int → List Nat
  | none => chunkNull
  | some i => serInt i

/-- `AOFCommand.to_json().encode('utf-8')`: the exact byte sequence
`json.dumps(asdict(self))` produces for the five fields in dataclass order
with the default separators. -/
def toJsonBytes (c : AOFCommand) : List Nat :=
  chunkObjHead ++ serStr c.command ++ chunkKey ++ serStr c.key ++
    chunkValue ++ serOptStr c.value ++ chunkTtl ++ serOptInt c.ttl ++
    chunkTimestamp ++ serInt c.timestamp ++ chunkClose

/-- Value of a hex digit accepted by the JSON scanner. -/
def hexVal (c : Nat) : Option Nat :=
  if 48 ≤ c ∧ c ≤ 57 then some (c - 48)
  else if 97 ≤ c ∧ c ≤ 102 then some (c - 87)
  else if 65 ≤ c ∧ c ≤ 70 then some (c - 55)
  else none

def combineHex (a b c d : Nat) : Option Nat :=
  match hexVal a, hexVal b, hexVal c, hexVal d with
  | some x, some y, some z, some w => some (((x * 16 + y) * 16 + z) * 16 + w)
  | _, _, _, _ => none

/-- The `\uXXXX` arm of the scanner: four hex digits, recombining a
high/low surrogate pair written as two consecutive `\uXXXX` escapes into
one code point (a high surrogate not followed by a low one is kept as is,
as CPython does). -/
def parseUni : List Nat → Option (Nat × List Nat)
  | a :: b :: c2 :: d :: rest3 =>
    match combineHex a b c2 d with
    | none => none
    | some u =>
      if 55296 ≤ u ∧ u ≤ 56319 then
        match rest3 with
        | e1 :: e2 :: a2 :: b2 :: c3 :: d2 :: rest5 =>
          if e1 = 92 ∧ e2 = 117 then
            match combineHex a2 b2 c3 d2 with
            | some u2 =>
              if 56320 ≤ u2 ∧ u2 ≤ 57343 then
                some (65536 + (u - 55296) * 1024 + (u2 - 56320), rest5)
              else some (u, rest3)
            | none => some (u, rest3)
          else some (u, rest3)
        | _ => some (u, rest3)
      else some (u, rest3)
  | _ => none

/-- Decoding of one backslash escape by the `json.loads` string scanner
(CPython `py_scanstring`): the two-character escapes, and the `\uXXXX` arm
via `parseUni`.  Returns the decoded code point and the remaining input. -/
def parseEsc : List Nat → Option (Nat × List Nat)
  | [] => none
  | e :: rest2 =>
    if e = 34 then some (34, rest2)
    else if e = 92 then some (92, rest2)
    else if e = 47 then some (47, rest2)
    else if e = 98 then some (8, rest2)
    else if e = 102 then some (12, rest2)
    else if e = 110 then some (10, rest2)
    else if e = 114 then some (13, rest2)
    else if e = 116 then some (9, rest2)
    else if e = 117 then parseUni rest2
    else none

theorem parseUni_length (l : List Nat) (ch : Nat) (r : List Nat)
    (h : parseUni l = some (ch, r)) : r.length < l.length := by
  match l with
  | [] => exact absurd h (by simp [parseUni])
  | [a] => exact absurd h (by simp [parseUni])
  | [a, b] => exact absurd h (by simp [parseUni])
  | [a, b, c2] => exact absurd h (by simp [parseUni])
  | a :: b :: c2 :: d :: rest3 =>
    simp only [parseUni] at h
    rcases hcomb : combineHex a b c2 d with _ | u
    · rw [hcomb] at h
      exact absurd h (by simp)
    rw [hcomb] at h
    simp only [] at h
    by_cases hsur : 55296 ≤ u ∧ u ≤ 56319
    case neg =>
      rw [if_neg hsur] at h
      simp only [Option.some.injEq, Prod.mk.injEq] at h
      obtain ⟨-, hx⟩ := h; subst hx; simp only [List.length_cons]; omega
    rw [if_pos hsur] at h
    rcases rest3 with _ | ⟨e1, rest3a⟩
    · simp only [Option.some.injEq, Prod.mk.injEq] at h
      obtain ⟨-, hx⟩ := h; subst hx; simp only [List.length_cons]; omega
    rcases rest3a with _ | ⟨e2, rest3b⟩
    · simp only [Option.some.injEq, Prod.mk.injEq] at h
      obtain ⟨-, hx⟩ := h; subst hx; simp only [List.length_cons]; omega
    rcases rest3b with _ | ⟨a2, rest3c⟩
    · simp only [Option.some.injEq, Prod.mk.injEq] at h
      obtain ⟨-, hx⟩ := h; subst hx; simp only [List.length_cons]; omega
    rcases rest3c with _ | ⟨b2, rest3d⟩
    · simp only [Option.some.injEq, Prod.mk.injEq] at h
      obtain ⟨-, hx⟩ := h; subst hx; simp only [List.length_cons]; omega
    rcases rest3d with _ | ⟨c3, rest3e⟩
    · simp only [Option.some.injEq, Prod.mk.injEq] at h
      obtain ⟨-, hx⟩ := h; subst hx; simp only [List.length_cons]; omega
    rcases rest3e with _ | ⟨d2, rest5⟩
    · simp only [Option.some.injEq, Prod.mk.injEq] at h
      obtain ⟨-, hx⟩ := h; subst hx; simp only [List.length_cons]; omega
    simp only [] at h
    by_cases hpair : e1 = 92 ∧ e2 = 117
    case neg =>
      rw [if_neg hpair] at h
      simp only [Option.some.injEq, Prod.mk.injEq] at h
      obtain ⟨-, hx⟩ := h; subst hx; simp only [List.length_cons]; omega
    rw [if_pos hpair] at h
    rcases hcomb2 : combineHex a2 b2 c3 d2 with _ | u2
    · rw [hcomb2] at h
      simp only [Option.some.injEq, Prod.mk.injEq] at h
      obtain ⟨-, hx⟩ := h; subst hx; simp only [List.length_cons]; omega
    rw [hcomb2] at h
    simp only [] at h
    by_cases hlow : 56320 ≤ u2 ∧ u2 ≤ 57343
    · rw [if_pos hlow] at h
      simp only [Option.some.injEq, Prod.mk.injEq] at h
      obtain ⟨-, hx⟩ := h; subst hx; simp only [List.length_cons]; omega
    · rw [if_neg hlow] at h
      simp only [Option.some.injEq, Prod.mk.injEq] at h
      obtain ⟨-, hx⟩ := h; subst hx; simp only [List.length_cons]; omega

theorem parseEsc_length (l : List Nat) (ch : Nat) (r : List Nat)
    (h : parseEsc l = some (ch, r)) : r.length < l.length := by
  match l with
  | [] => exact absurd h (by simp [parseEsc])
  | e :: rest2 =>
    simp only [parseEsc] at h
    by_cases h1 : e = 34
    · rw [if_pos h1] at h
      simp only [Option.some.injEq, Prod.mk.injEq] at h
      obtain ⟨-, hx⟩ := h; subst hx; simp only [List.length_cons]; omega
    rw [if_neg h1] at h
    by_cases h2 : e = 92
    · rw [if_pos h2] at h
      simp only [Option.some.injEq, Prod.mk.injEq] at h
      obtain ⟨-, hx⟩ := h; subst hx; simp only [List.length_cons]; omega
    rw [if_neg h2] at h
    by_cases h3 : e = 47
    · rw [if_pos h3] at h
      simp only [Option.some.injEq, Prod.mk.injEq] at h
      obtain ⟨-, hx⟩ := h; subst hx; simp only [List.length_cons]; omega
    rw [if_neg h3] at h
    by_cases h4 : e = 98
    · rw [if_pos h4] at h
      simp only [Option.some.injEq, Prod.mk.injEq] at h
      obtain ⟨-, hx⟩ := h; subst hx; simp only [List.length_cons]; omega
    rw [if_neg h4] at h
    by_cases h5 : e = 102
    · rw [if_pos h5] at h
      simp only [Option.some.injEq, Prod.mk.injEq] at h
      obtain ⟨-, hx⟩ := h; subst hx; simp only [List.length_cons]; omega
    rw [if_neg h5] at h
    by_cases h6 : e = 110
    · rw [if_pos h6] at h
      simp only [Option.some.injEq, Prod.mk.injEq] at h
      obtain ⟨-, hx⟩ := h; subst hx; simp only [List.length_cons]; omega
    rw [if_neg h6] at h
    by_cases h7 : e = 114
    · rw [if_pos h7] at h
      simp only [Option.some.injEq, Prod.mk.injEq] at h
      obtain ⟨-, hx⟩ := h; subst hx; simp only [List.length_cons]; omega
    rw [if_neg h7] at h
    by_cases h8 : e = 116
    · rw [if_pos h8] at h
      simp only [Option.some.injEq, Prod.mk.injEq] at h
      obtain ⟨-, hx⟩ := h; subst hx; simp only [List.length_cons]; omega
    rw [if_neg h8] at h
    by_cases h9 : e = 117
    case neg =>
      rw [if_neg h9] at h
      exact absurd h (by simp)
    rw [if_pos h9] at h
    exact Nat.lt_succ_of_lt (parseUni_length _ _ _ h)

/-- The string scanner of `json.loads` (CPython `py_scanstring`), restricted
to the grammar `to_json` emits: reads the body after the opening quote up to
the closing quote, decoding backslash escapes via `parseEsc`. -/
def parseStrBody : List Nat → Option (List Nat × List Nat)
  | [] => none
  | c :: rest =>
    if c = 34 then some ([], rest)
    else if c = 92 then
      match hE : parseEsc rest with
      | none => none
      | some (ch, rest2) => (parseStrBody rest2).map (fun p => (ch :: p.1, p.2))
    else (parseStrBody rest).map (fun p => (c :: p.1, p.2))
termination_by l => l.length
decreasing_by
  · exact Nat.lt_succ_of_lt (parseEsc_length _ _ _ (by assumption))
  · exact Nat.lt_succ_self _

/-- A JSON string literal: opening quote then scanned body. -/
def parseStrLit (l : List Nat) : Option (List Nat × List Nat) :=
  match l with
  | c :: rest => if c = 34 then parseStrBody rest else none
  | [] => none

/-- Greedy digit run, accumulating left to right. -/
def parseDigitsGo (acc : Nat) : List Nat → Nat × List Nat
  | [] => (acc, [])
  | c :: rest =>
    if 48 ≤ c ∧ c ≤ 57 then parseDigitsGo (acc * 10 + (c - 48)) rest
    else (acc, c :: rest)

/-- A non-empty digit run. -/
def parseNat (l : List Nat) : Option (Nat × List Nat) :=
  match l with
  | c :: rest =>
    if 48 ≤ c ∧ c ≤ 57 then some (parseDigitsGo (c - 48) rest) else none
  | [] => none

/-- A JSON integer (optional minus sign then digits). -/
def parseIntJ (l : List Nat) : Option (Int × List Nat) :=
  match l with
  | c :: rest =>
    if c = 45 then (parseNat rest).map (fun p => (-(p.1 : Int), p.2))
    else (parseNat l).map (fun p => ((p.1 : Int), p.2))
  | [] => none

/-- Expect an exact literal chunk, returning the remainder. -/
def expectChunk : List Nat → List Nat → Option (List Nat)
  | [], l => some l
  | _ :: _, [] => none
  | c :: cs, x :: xs => if c = x then expectChunk cs xs else none

def parseOptStrLit (l : List Nat) : Option (Option (List Nat) × List Nat) :=
  match expectChunk chunkNull l with
  | some rest => some (none, rest)
  | none => (parseStrLit l).map (fun p => (some p.1, p.2))

def parseOptIntLit (l : List Nat) : Option (Option Int × List Nat) :=
  match expectChunk chunkNull l with
  | some rest => some (none, rest)
  | none => (parseIntJ l).map (fun p => (some p.1, p.2))

/-- `json.loads` followed by `AOFCommand(**record_data)`, modelled on the
record grammar `to_json` emits (an object with exactly the five dataclass
keys in order).  Payloads outside this grammar yield `none`; in the source
they raise `JSONDecodeError` (caught, yielding `None`) or, for a decoded
non-record value, an uncaught `TypeError` — neither is reachable from
frames produced by `to_wal_format`. -/
def fromJsonBytes (l : List Nat) : Option AOFCommand := do
  let r0 ← expectChunk chunkObjHead l
  let (cmd, r1) ← parseStrLit r0
  let r2 ← expectChunk chunkKey r1
  let (key, r3) ← parseStrLit r2
  let r4 ← expectChunk chunkValue r3
  let (value, r5) ← parseOptStrLit r4
  let r6 ← expectChunk chunkTtl r5
  let (ttl, r7) ← parseOptIntLit r6
  let r8 ← expectChunk chunkTimestamp r7
  let (ts, r9) ← parseIntJ r8
  let r10 ← expectChunk chunkClose r9
  if r10 = [] then some ⟨cmd, key, value, ttl, ts⟩ else none

/-- Big-endian `struct.pack('>I', n)` (defined for `n < 2^32`; the source
raises `struct.error` beyond, so no frame exists for larger values). -/
def u32be (n : Nat) : List Nat :=
  [n / 16777216 % 256, n / 65536 % 256, n / 256 % 256, n % 256]

/-- Big-endian `struct.unpack('>I', ·)` on a 4-byte slice. -/
def u32beVal (l : List Nat) : Nat := l.foldl (fun a b => a * 256 + b) 0

/-- One bit step of the reflected CRC-32 (polynomial `0xEDB88320`), as in
zlib. -/
def crc32Round (c : Nat) : Nat :=
  if c % 2 = 1 then (c / 2) ^^^ 3988292384 else c / 2

def crc32Rounds : Nat → Nat → Nat
  | 0, c => c
  | n + 1, c => crc32Rounds n (crc32Round c)

def crc32Byte (c b : Nat) : Nat := crc32Rounds 8 (c ^^^ (b % 256))

/-- `zlib.crc32(data) & 0xffffffff`: fold the byte step over the data with
the usual init/xorout of `0xFFFFFFFF`. -/
def crc32 (data : List Nat) : Nat := (data.foldl crc32Byte 4294967295) ^^^ 4294967295

/-- `AOFCommand.to_wal_format`:
`[4-byte length][command_json][4-byte CRC32]`, CRC over the payload only. -/
def toWalFormat (c : AOFCommand) : List Nat :=
  u32be (toJsonBytes c).length ++ toJsonBytes c ++ u32be (crc32 (toJsonBytes c))

/-- `AOFCommand.from_wal_format`: length prefix, payload slice, CRC check,
then JSON decode.  Python slicing truncates at the end of the data, and a
short CRC slice makes `struct.unpack` raise (caught, `None`). -/
def fromWalFormat (data : List Nat) : Option AOFCommand :=
  if data.length < 8 then none
  else
    let length := u32beVal (data.take 4)
    let jsonData := (data.drop 4).take length
    let crcBytes := (data.drop (4 + length)).take 4
    if crcBytes.length ≠ 4 then none
    else if crc32 jsonData ≠ u32beVal crcBytes then none
    else fromJsonBytes jsonData

/-- `PersistenceManager.replay_aof` over the WAL bytes: the list of commands
applied (via the callback, modelled as never failing) and the number of
times `aof_corruption_skipped` was incremented (0 or 1; the loop breaks at
the first bad record).  A tail shorter than 4 bytes is the
`len(length_bytes) < 4` branch: replay stops *without* touching the
counter; a complete length prefix with a short body, or a CRC/parse
failure, increments it and stops. -/
def replayAof (bytes : List Nat) : List AOFCommand × Nat :=
  if bytes.length < 4 then ([], 0)
  else
    let length := u32beVal (bytes.take 4)
    let recordData := bytes.take (4 + (length + 4))
    if recordData.length < length + 8 then ([], 1)
    else
      match fromWalFormat recordData with
      | none => ([], 1)
      | some cmd =>
        let p := replayAof (bytes.drop (length + 8))
        (cmd :: p.1, p.2)
termination_by bytes.length
decreasing_by
  simp only [List.length_drop]
  omega

/-- The three AOF fsync policies of `persistence.py`. -/
inductive FsyncPolicy where
  | always
  | everysec
  | no
deriving DecidableEq

/-- The durability-relevant state of `PersistenceManager`: the in-memory
command buffer, the bytes written to `aof.wal`, the count of completed
`os.fsync` calls, and the `everysec` bookkeeping. -/
structure PState where
  policy : FsyncPolicy
  fsyncIntervalSecs : Nat
  buffer : List AOFCommand
  file : List Nat
  fsyncCount : Nat
  lastFsyncTime : Nat
deriving DecidableEq

/-- `PersistenceManager.flush_aof`: write every buffered record to the file,
then fsync according to policy (`always`: every flush; `everysec`: only when
the interval elapsed; `no`: never), and clear the buffer. -/
def flushAof (now : Nat) (s : PState) : PState :=
  if s.buffer = [] then s
  else
    let file := s.file ++ (s.buffer.map toWalFormat).flatten
    match s.policy with
    | .always => { s with file := file, fsyncCount := s.fsyncCount + 1, buffer := [] }
    | .everysec =>
      if s.fsyncIntervalSecs ≤ now - s.lastFsyncTime then
        { s with file := file, fsyncCount := s.fsyncCount + 1,
                 lastFsyncTime := now, buffer := [] }
      else { s with file := file, buffer := [] }
    | .no => { s with file := file, buffer := [] }

/-- `PersistenceManager.log_command`: append the record to the in-memory
buffer; only when the buffer exceeds 1000 records flush synchronously
(back-pressure).  Otherwise the function returns with the record still
buffered, leaving writing and fsync to the background daemon. -/
def logCommand (now : Nat) (command key : List Nat) (value : Option (List Nat))
    (ttl : Option Int) (s : PState) : PState :=
  let s2 := { s with buffer := s.buffer ++ [⟨command, key, value, ttl, (now : Int)⟩] }
  if 1000 < s2.buffer.length then flushAof now s2 else s2

/-!
### Round-trip lemmas for the WAL encoding
-/

/-- A Unicode scalar value: what a CPython `str` character is, lone
surrogates aside (a `str` decoded from UTF-8, as all RESP input is, never
contains surrogates). -/
def ValidChar (c : Nat) : Prop := c < 1114112 ∧ ¬(55296 ≤ c ∧ c < 57344)

def ValidStr (s : List Nat) : Prop := ∀ c ∈ s, ValidChar c

def ValidOptStr : Option (List Nat) → Prop
  | none => True
  | some s => ValidStr s

instance (c : Nat) : Decidable (ValidChar c) :=
  inferInstanceAs (Decidable (c < 1114112 ∧ ¬(55296 ≤ c ∧ c < 57344)))

instance (s : List Nat) : Decidable (ValidStr s) :=
  inferInstanceAs (Decidable (∀ c ∈ s, ValidChar c))

instance : (o : Option (List Nat)) → Decidable (ValidOptStr o)
  | none => .isTrue trivial
  | some s => inferInstanceAs (Decidable (ValidStr s))

/-- The conditions under which a WAL frame for the command exists: its
strings are Unicode scalars and the payload fits the `u32` length prefix
(`struct.pack` raises beyond `2^32`). -/
def ValidCmd (c : AOFCommand) : Prop :=
  ValidStr c.command ∧ ValidStr c.key ∧ ValidOptStr c.value ∧
    (toJsonBytes c).length < 4294967296

instance (c : AOFCommand) : Decidable (ValidCmd c) :=
  inferInstanceAs (Decidable (ValidStr c.command ∧ ValidStr c.key ∧
    ValidOptStr c.value ∧ (toJsonBytes c).length < 4294967296))

theorem hexVal_hexDigitChar (m : Nat) (h : m < 16) :
    hexVal (hexDigitChar m) = some m := by
  unfold hexVal hexDigitChar
  split_ifs <;> first
    | (exfalso; omega)
    | (simp only [Option.some.injEq]; omega)

theorem combineHex_of_hex4 (n : Nat) (h : n < 65536) :
    combineHex (hexDigitChar (n / 4096 % 16)) (hexDigitChar (n / 256 % 16))
      (hexDigitChar (n / 16 % 16)) (hexDigitChar (n % 16)) = some n := by
  unfold combineHex
  rw [hexVal_hexDigitChar _ (by omega), hexVal_hexDigitChar _ (by omega),
    hexVal_hexDigitChar _ (by omega), hexVal_hexDigitChar _ (by omega)]
  simp only [Option.some.injEq]
  omega

/-- The head of the remaining input is not a decimal digit, so a greedy
digit run stops exactly there. -/
def NotDigitHead : List Nat → Prop
  | [] => True
  | c :: _ => ¬(48 ≤ c ∧ c ≤ 57)

theorem parseDigitsGo_stop (acc : Nat) (rest : List Nat) (h : NotDigitHead rest) :
    parseDigitsGo acc rest = (acc, rest) := by
  cases rest with
  | nil => rfl
  | cons c t =>
    unfold parseDigitsGo
    rw [if_neg h]

theorem parseDigitsGo_append (ds : List Nat) (rest : List Nat) (acc : Nat)
    (hds : ∀ d ∈ ds, 48 ≤ d ∧ d ≤ 57) (hrest : NotDigitHead rest) :
    parseDigitsGo acc (ds ++ rest) =
      (ds.foldl (fun a d => a * 10 + (d - 48)) acc, rest) := by
  induction ds generalizing acc with
  | nil => simpa using parseDigitsGo_stop acc rest hrest
  | cons d t ih =>
    have hd := hds d (by simp)
    rw [List.cons_append]
    unfold parseDigitsGo
    rw [if_pos hd, List.foldl_cons]
    exact ih _ (fun x hx => hds x (by simp [hx]))

theorem foldl_base10_reverse (L : List Nat) :
    L.reverse.foldl (fun a d => a * 10 + d) 0 = Nat.ofDigits 10 L := by
  induction L with
  | nil => simp [Nat.ofDigits]
  | cons d t ih =>
    rw [List.reverse_cons, List.foldl_append, ih, Nat.ofDigits_cons]
    simp
    ring

theorem serNat_all_digits (n : Nat) : ∀ d ∈ serNat n, 48 ≤ d ∧ d ≤ 57 := by
  intro d hd
  unfold serNat at hd
  by_cases h0 : n = 0
  · rw [if_pos h0] at hd
    simp at hd
    omega
  · rw [if_neg h0] at hd
    simp at hd
    obtain ⟨a, ha, rfl⟩ := hd
    have := Nat.digits_lt_base (by norm_num) ha
    omega

theorem parseNat_cons (c : Nat) (rest : List Nat) :
    parseNat (c :: rest) =
      if 48 ≤ c ∧ c ≤ 57 then some (parseDigitsGo (c - 48) rest) else none := rfl

theorem parseIntJ_cons (c : Nat) (rest : List Nat) :
    parseIntJ (c :: rest) =
      if c = 45 then (parseNat rest).map (fun p => (-(p.1 : Int), p.2))
      else (parseNat (c :: rest)).map (fun p => ((p.1 : Int), p.2)) := rfl

theorem parseNat_serNat (n : Nat) (rest : List Nat) (h : NotDigitHead rest) :
    parseNat (serNat n ++ rest) = some (n, rest) := by
  by_cases h0 : n = 0
  · subst h0
    show parseNat (48 :: rest) = some (0, rest)
    rw [parseNat_cons, if_pos (by omega : 48 ≤ 48 ∧ 48 ≤ 57),
      show (48 : Nat) - 48 = 0 from rfl, parseDigitsGo_stop 0 rest h]
  · have hne : Nat.digits 10 n ≠ [] := Nat.digits_ne_nil_iff_ne_zero.mpr h0
    have hne' : (Nat.digits 10 n).reverse ≠ [] := by simpa using hne
    obtain ⟨r, rs, hrs⟩ := List.exists_cons_of_ne_nil hne'
    have hser : serNat n = (r + 48) :: rs.map (fun d => d + 48) := by
      unfold serNat
      rw [if_neg h0, hrs]
      simp
    have hdigs : ∀ d ∈ serNat n, 48 ≤ d ∧ d ≤ 57 := serNat_all_digits n
    rw [hser] at hdigs ⊢
    rw [List.cons_append, parseNat_cons]
    rw [if_pos (hdigs _ (by simp))]
    rw [parseDigitsGo_append _ _ _ (fun x hx => hdigs x (List.mem_cons_of_mem _ hx)) h]
    simp only [Option.some.injEq, Prod.mk.injEq, and_true]
    rw [List.foldl_map]
    have heq : (fun (a : Nat) (d : Nat) => a * 10 + (d + 48 - 48)) = (fun a d => a * 10 + d) := by
      funext a d
      omega
    rw [heq]
    have hfold : rs.foldl (fun a d => a * 10 + d) (r + 48 - 48) =
        (r :: rs).foldl (fun a d => a * 10 + d) 0 := by
      simp
    rw [hfold, ← hrs, foldl_base10_reverse, Nat.ofDigits_digits]

theorem serNat_head_digit (n : Nat) :
    ∃ c t, serNat n = c :: t ∧ 48 ≤ c ∧ c ≤ 57 := by
  have hne : serNat n ≠ [] := by
    unfold serNat
    split_ifs with h0
    · simp
    · have hne : Nat.digits 10 n ≠ [] := Nat.digits_ne_nil_iff_ne_zero.mpr h0
      simpa using hne
  obtain ⟨c, t, hct⟩ := List.exists_cons_of_ne_nil hne
  exact ⟨c, t, hct, by
    have := serNat_all_digits n c (by rw [hct]; simp)
    exact this.1, by
    have := serNat_all_digits n c (by rw [hct]; simp)
    exact this.2⟩

theorem parseIntJ_serInt (i : Int) (rest : List Nat) (h : NotDigitHead rest) :
    parseIntJ (serInt i ++ rest) = some (i, rest) := by
  obtain ⟨c, t, hct, hc1, hc2⟩ := serNat_head_digit i.natAbs
  by_cases hneg : i < 0
  · unfold serInt
    rw [if_pos hneg, List.cons_append, parseIntJ_cons]
    rw [if_pos rfl, parseNat_serNat _ _ h]
    simp only [Option.map_some', Option.some.injEq, Prod.mk.injEq, and_true]
    omega
  · unfold serInt
    rw [if_neg hneg, hct, List.cons_append, parseIntJ_cons]
    rw [if_neg (by omega : ¬ c = 45)]
    rw [← List.cons_append, ← hct, parseNat_serNat _ _ h]
    simp only [Option.map_some', Option.some.injEq, Prod.mk.injEq, and_true]
    omega

theorem psb_close (rest : List Nat) : parseStrBody (34 :: rest) = some ([], rest) := by
  rw [parseStrBody.eq_def]
  norm_num

theorem psb_esc_step (rest : List Nat) (ch : Nat) (rest2 : List Nat)
    (hE : parseEsc rest = some (ch, rest2)) :
    parseStrBody (92 :: rest) = (parseStrBody rest2).map (fun p => (ch :: p.1, p.2)) := by
  rw [parseStrBody.eq_def]
  norm_num
  split
  · simp_all
  · rename_i ch' rest2' heq
    rw [hE] at heq
    simp only [Option.some.injEq, Prod.mk.injEq] at heq
    obtain ⟨hc, hr⟩ := heq
    rw [hc, hr]

theorem psb_plain (c : Nat) (tail : List Nat) (h1 : ¬ c = 34) (h2 : ¬ c = 92) :
    parseStrBody (c :: tail) = (parseStrBody tail).map (fun p => (c :: p.1, p.2)) := by
  rw [parseStrBody.eq_def]
  simp only [if_neg h1, if_neg h2]

theorem parseEsc_quote (t : List Nat) : parseEsc (34 :: t) = some (34, t) := rfl

theorem parseEsc_backslash (t : List Nat) : parseEsc (92 :: t) = some (92, t) := rfl

theorem parseEsc_b (t : List Nat) : parseEsc (98 :: t) = some (8, t) := rfl

theorem parseEsc_t (t : List Nat) : parseEsc (116 :: t) = some (9, t) := rfl

theorem parseEsc_n (t : List Nat) : parseEsc (110 :: t) = some (10, t) := rfl

theorem parseEsc_f (t : List Nat) : parseEsc (102 :: t) = some (12, t) := rfl

theorem parseEsc_r (t : List Nat) : parseEsc (114 :: t) = some (13, t) := rfl

theorem parseEsc_u (X : List Nat) : parseEsc (117 :: X) = parseUni X := rfl

theorem parseUni_single (a b c2 d : Nat) (rest3 : List Nat) (u : Nat)
    (hc : combineHex a b c2 d = some u) (hns : ¬ (55296 ≤ u ∧ u ≤ 56319)) :
    parseUni (a :: b :: c2 :: d :: rest3) = some (u, rest3) := by
  simp only [parseUni]
  rw [hc]
  simp only []
  rw [if_neg hns]

theorem parseUni_pair (a b c2 d a2 b2 c3 d2 : Nat) (rest5 : List Nat) (u u2 : Nat)
    (hc1 : combineHex a b c2 d = some u) (hs : 55296 ≤ u ∧ u ≤ 56319)
    (hc2 : combineHex a2 b2 c3 d2 = some u2) (hl : 56320 ≤ u2 ∧ u2 ≤ 57343) :
    parseUni (a :: b :: c2 :: d :: 92 :: 117 :: a2 :: b2 :: c3 :: d2 :: rest5) =
      some (65536 + (u - 55296) * 1024 + (u2 - 56320), rest5) := by
  simp only [parseUni]
  rw [hc1]
  simp only []
  rw [if_pos hs]
  simp only [and_self, if_true]
  rw [hc2]
  simp only []
  rw [if_pos hl]

theorem parseEsc_unicode (u : Nat) (tail : List Nat) (hu1 : u < 65536)
    (hu2 : ¬ (55296 ≤ u ∧ u ≤ 56319)) :
    parseEsc (117 :: (hex4 u ++ tail)) = some (u, tail) := by
  rw [parseEsc_u]
  simp only [hex4, List.cons_append, List.nil_append]
  exact parseUni_single _ _ _ _ tail u (combineHex_of_hex4 u hu1) hu2

theorem parseEsc_surrogatePair (c : Nat) (tail : List Nat) (h1 : 65536 ≤ c)
    (h2 : c < 1114112) :
    parseEsc (117 :: (hex4 (55296 + (c - 65536) / 1024) ++
        (92 :: 117 :: (hex4 (56320 + (c - 65536) % 1024) ++ tail)))) =
      some (c, tail) := by
  have hmod : (c - 65536) % 1024 < 1024 := Nat.mod_lt _ (by norm_num)
  have hdiv : (c - 65536) / 1024 < 1024 := by omega
  have hhi : 55296 + (c - 65536) / 1024 < 65536 := by omega
  have hlo : 56320 + (c - 65536) % 1024 < 65536 := by omega
  rw [parseEsc_u]
  simp only [hex4, List.cons_append, List.nil_append]
  rw [parseUni_pair _ _ _ _ _ _ _ _ tail _ _
    (combineHex_of_hex4 _ hhi) (by omega)
    (combineHex_of_hex4 _ hlo) (by omega)]
  simp only [Option.some.injEq, Prod.mk.injEq, and_true]
  have := Nat.div_add_mod (c - 65536) 1024
  omega

theorem parseStrBody_escString : ∀ (s : List Nat), ValidStr s → ∀ rest : List Nat,
    parseStrBody (escString s ++ (34 :: rest)) = some (s, rest) := by
  intro s
  induction s with
  | nil =>
    intro _ rest
    rw [escString, List.nil_append, psb_close]
  | cons c s' ih =>
    intro hs rest
    have hc : ValidChar c := hs c (by simp)
    have ihs := ih (fun x hx => hs x (List.mem_cons_of_mem _ hx)) rest
    rw [escString, List.append_assoc]
    by_cases h1 : c = 34
    · subst h1
      rw [show escapeChar 34 = [92, 34] from rfl]
      rw [show ([92, 34] : List Nat) ++ (escString s' ++ (34 :: rest)) =
        92 :: 34 :: (escString s' ++ (34 :: rest)) from rfl]
      rw [psb_esc_step _ _ _ (parseEsc_quote _), ihs]
      rfl
    by_cases h2 : c = 92
    · subst h2
      rw [show escapeChar 92 = [92, 92] from rfl]
      rw [show ([92, 92] : List Nat) ++ (escString s' ++ (34 :: rest)) =
        92 :: 92 :: (escString s' ++ (34 :: rest)) from rfl]
      rw [psb_esc_step _ _ _ (parseEsc_backslash _), ihs]
      rfl
    by_cases h3 : c = 8
    · subst h3
      rw [show escapeChar 8 = [92, 98] from rfl]
      rw [show ([92, 98] : List Nat) ++ (escString s' ++ (34 :: rest)) =
        92 :: 98 :: (escString s' ++ (34 :: rest)) from rfl]
      rw [psb_esc_step _ _ _ (parseEsc_b _), ihs]
      rfl
    by_cases h4 : c = 9
    · subst h4
      rw [show escapeChar 9 = [92, 116] from rfl]
      rw [show ([92, 116] : List Nat) ++ (escString s' ++ (34 :: rest)) =
        92 :: 116 :: (escString s' ++ (34 :: rest)) from rfl]
      rw [psb_esc_step _ _ _ (parseEsc_t _), ihs]
      rfl
    by_cases h5 : c = 10
    · subst h5
      rw [show escapeChar 10 = [92, 110] from rfl]
      rw [show ([92, 110] : List Nat) ++ (escString s' ++ (34 :: rest)) =
        92 :: 110 :: (escString s' ++ (34 :: rest)) from rfl]
      rw [psb_esc_step _ _ _ (parseEsc_n _), ihs]
      rfl
    by_cases h6 : c = 12
    · subst h6
      rw [show escapeChar 12 = [92, 102] from rfl]
      rw [show ([92, 102] : List Nat) ++ (escString s' ++ (34 :: rest)) =
        92 :: 102 :: (escString s' ++ (34 :: rest)) from rfl]
      rw [psb_esc_step _ _ _ (parseEsc_f _), ihs]
      rfl
    by_cases h7 : c = 13
    · subst h7
      rw [show escapeChar 13 = [92, 114] from rfl]
      rw [show ([92, 114] : List Nat) ++ (escString s' ++ (34 :: rest)) =
        92 :: 114 :: (escString s' ++ (34 :: rest)) from rfl]
      rw [psb_esc_step _ _ _ (parseEsc_r _), ihs]
      rfl
    by_cases h8 : c < 32
    · have hesc : escapeChar c = 92 :: 117 :: hex4 c := by
        unfold escapeChar
        rw [if_neg h1, if_neg h2, if_neg h3, if_neg h4, if_neg h5, if_neg h6,
          if_neg h7, if_pos h8]
      rw [hesc]
      rw [show (92 :: 117 :: hex4 c) ++ (escString s' ++ (34 :: rest)) =
        92 :: (117 :: (hex4 c ++ (escString s' ++ (34 :: rest)))) from by
          simp [List.cons_append]]
      rw [psb_esc_step _ _ _ (parseEsc_unicode c _ (by omega) (by omega)), ihs]
      rfl
    by_cases h9 : c ≤ 126
    · have hesc : escapeChar c = [c] := by
        unfold escapeChar
        rw [if_neg h1, if_neg h2, if_neg h3, if_neg h4, if_neg h5, if_neg h6,
          if_neg h7, if_neg h8, if_pos h9]
      rw [hesc]
      rw [show ([c] : List Nat) ++ (escString s' ++ (34 :: rest)) =
        c :: (escString s' ++ (34 :: rest)) from rfl]
      rw [psb_plain c _ h1 h2, ihs]
      rfl
    by_cases h10 : c < 65536
    · have hesc : escapeChar c = 92 :: 117 :: hex4 c := by
        unfold escapeChar
        rw [if_neg h1, if_neg h2, if_neg h3, if_neg h4, if_neg h5, if_neg h6,
          if_neg h7, if_neg h8, if_neg h9, if_pos h10]
      have hns : ¬ (55296 ≤ c ∧ c ≤ 56319) := by
        rcases hc with ⟨hlt, hsur⟩
        omega
      rw [hesc]
      rw [show (92 :: 117 :: hex4 c) ++ (escString s' ++ (34 :: rest)) =
        92 :: (117 :: (hex4 c ++ (escString s' ++ (34 :: rest)))) from by
          simp [List.cons_append]]
      rw [psb_esc_step _ _ _ (parseEsc_unicode c _ h10 hns), ihs]
      rfl
    · have hesc : escapeChar c = (92 :: 117 :: hex4 (55296 + (c - 65536) / 1024)) ++
          (92 :: 117 :: hex4 (56320 + (c - 65536) % 1024)) := by
        unfold escapeChar
        rw [if_neg h1, if_neg h2, if_neg h3, if_neg h4, if_neg h5, if_neg h6,
          if_neg h7, if_neg h8, if_neg h9, if_neg h10]
      have h65 : 65536 ≤ c := by omega
      rw [hesc]
      rw [show ((92 :: 117 :: hex4 (55296 + (c - 65536) / 1024)) ++
          (92 :: 117 :: hex4 (56320 + (c - 65536) % 1024))) ++
          (escString s' ++ (34 :: rest)) =
        92 :: (117 :: (hex4 (55296 + (c - 65536) / 1024) ++
          (92 :: 117 :: (hex4 (56320 + (c - 65536) % 1024) ++
            (escString s' ++ (34 :: rest)))))) from by
          simp [List.cons_append, List.append_assoc]]
      rw [psb_esc_step _ _ _ (parseEsc_surrogatePair c _ h65 hc.1), ihs]
      rfl

theorem expectChunk_append (cs : List Nat) : ∀ l : List Nat,
    expectChunk cs (cs ++ l) = some l := by
  induction cs with
  | nil => intro l; rfl
  | cons c t ih =>
    intro l
    rw [List.cons_append]
    unfold expectChunk
    rw [if_pos rfl]
    exact ih l

theorem expectChunk_self (cs : List Nat) : expectChunk cs cs = some [] := by
  have := expectChunk_append cs []
  rwa [List.append_nil] at this

theorem expectChunk_ne_head (c x : Nat) (cs xs : List Nat) (h : ¬ c = x) :
    expectChunk (c :: cs) (x :: xs) = none := by
  unfold expectChunk
  rw [if_neg h]

theorem parseStrLit_serStr (s : List Nat) (hs : ValidStr s) (rest : List Nat) :
    parseStrLit (serStr s ++ rest) = some (s, rest) := by
  rw [serStr, show (34 :: (escString s ++ [34])) ++ rest =
    34 :: (escString s ++ (34 :: rest)) from by simp [List.append_assoc]]
  rw [show parseStrLit (34 :: (escString s ++ (34 :: rest))) =
    parseStrBody (escString s ++ (34 :: rest)) from rfl]
  exact parseStrBody_escString s hs rest

theorem serStr_head (s : List Nat) (rest : List Nat) :
    ∃ t, serStr s ++ rest = 34 :: t := ⟨escString s ++ [34] ++ rest, by simp [serStr]⟩

theorem parseOptStrLit_none (rest : List Nat) :
    parseOptStrLit (chunkNull ++ rest) = some (none, rest) := by
  unfold parseOptStrLit
  rw [expectChunk_append]

theorem parseOptStrLit_some (s : List Nat) (hs : ValidStr s) (rest : List Nat) :
    parseOptStrLit (serStr s ++ rest) = some (some s, rest) := by
  obtain ⟨t, ht⟩ := serStr_head s rest
  unfold parseOptStrLit
  rw [ht, show chunkNull = 110 :: [117, 108, 108] from rfl,
    expectChunk_ne_head _ _ _ _ (by omega), ← ht, parseStrLit_serStr s hs rest]
  rfl

theorem serInt_head_ne (i : Int) (rest : List Nat) :
    ∃ c t, serInt i ++ rest = c :: t ∧ ¬ c = 110 := by
  obtain ⟨c, t, hct, hc1, hc2⟩ := serNat_head_digit i.natAbs
  unfold serInt
  by_cases hneg : i < 0
  · rw [if_pos hneg]
    exact ⟨45, serNat i.natAbs ++ rest, by simp, by omega⟩
  · rw [if_neg hneg, hct]
    exact ⟨c, t ++ rest, by simp, by omega⟩

theorem parseOptIntLit_none (rest : List Nat) :
    parseOptIntLit (chunkNull ++ rest) = some (none, rest) := by
  unfold parseOptIntLit
  rw [expectChunk_append]

theorem parseOptIntLit_some (i : Int) (rest : List Nat) (h : NotDigitHead rest) :
    parseOptIntLit (serInt i ++ rest) = some (some i, rest) := by
  obtain ⟨c, t, hct, hc⟩ := serInt_head_ne i rest
  unfold parseOptIntLit
  rw [hct, show chunkNull = 110 :: [117, 108, 108] from rfl,
    expectChunk_ne_head _ _ _ _ (fun he => hc he.symm), ← hct, parseIntJ_serInt i rest h]
  rfl

theorem notDigitHead_chunkTtl (x : List Nat) : NotDigitHead (chunkTtl ++ x) := by
  rw [show chunkTtl ++ x = 44 :: ([32, 34, 116, 116, 108, 34, 58, 32] ++ x) from rfl]
  show ¬ (48 ≤ 44 ∧ 44 ≤ 57)
  omega

theorem notDigitHead_chunkTimestamp (x : List Nat) :
    NotDigitHead (chunkTimestamp ++ x) := by
  rw [show chunkTimestamp ++ x =
    44 :: ([32, 34, 116, 105, 109, 101, 115, 116, 97, 109, 112, 34, 58, 32] ++ x) from rfl]
  show ¬ (48 ≤ 44 ∧ 44 ≤ 57)
  omega

theorem notDigitHead_chunkClose : NotDigitHead chunkClose := by
  show ¬ (48 ≤ 125 ∧ 125 ≤ 57)
  omega

/-- JSON payload round trip: decoding the emitted record yields the command
back. -/
theorem fromJsonBytes_toJsonBytes (c : AOFCommand) (hcmd : ValidStr c.command)
    (hkey : ValidStr c.key) (hval : ValidOptStr c.value) :
    fromJsonBytes (toJsonBytes c) = some c := by
  obtain ⟨cmd, key, value, ttl, ts⟩ := c
  simp only [toJsonBytes] at *
  unfold fromJsonBytes
  simp only [List.append_assoc]
  rw [expectChunk_append]
  simp only [Option.bind_eq_bind, Option.some_bind]
  rw [parseStrLit_serStr _ hcmd]
  simp only [Option.some_bind]
  rw [expectChunk_append]
  simp only [Option.some_bind]
  rw [parseStrLit_serStr _ hkey]
  simp only [Option.some_bind]
  rw [expectChunk_append]
  simp only [Option.some_bind]
  have hv : parseOptStrLit (serOptStr value ++ (chunkTtl ++ (serOptInt ttl ++
      (chunkTimestamp ++ (serInt ts ++ chunkClose))))) =
      some (value, chunkTtl ++ (serOptInt ttl ++
        (chunkTimestamp ++ (serInt ts ++ chunkClose)))) := by
    cases value with
    | none => exact parseOptStrLit_none _
    | some v => exact parseOptStrLit_some v hval _
  rw [hv]
  simp only [Option.some_bind]
  rw [expectChunk_append]
  simp only [Option.some_bind]
  have ht : parseOptIntLit (serOptInt ttl ++
      (chunkTimestamp ++ (serInt ts ++ chunkClose))) =
      some (ttl, chunkTimestamp ++ (serInt ts ++ chunkClose)) := by
    cases ttl with
    | none => exact parseOptIntLit_none _
    | some i => exact parseOptIntLit_some i _ (notDigitHead_chunkTimestamp _)
  rw [ht]
  simp only [Option.some_bind]
  rw [expectChunk_append]
  simp only [Option.some_bind]
  rw [parseIntJ_serInt ts _ notDigitHead_chunkClose]
  simp only [Option.some_bind]
  rw [expectChunk_self]
  simp only [Option.some_bind]
  rw [if_pos trivial]

theorem u32beVal_u32be (n : Nat) (h : n < 4294967296) : u32beVal (u32be n) = n := by
  show ((((0 * 256 + n / 16777216 % 256) * 256 + n / 65536 % 256) * 256 +
    n / 256 % 256) * 256 + n % 256) = n
  omega

theorem u32be_length (n : Nat) : (u32be n).length = 4 := rfl

theorem xor_lt_u32 (x y : Nat) (hx : x < 4294967296) (hy : y < 4294967296) :
    (x ^^^ y) < 4294967296 := by
  have h32 : (4294967296 : Nat) = 2 ^ 32 := by norm_num
  rw [h32] at hx hy ⊢
  exact Nat.xor_lt_two_pow hx hy

theorem crc32Round_lt (c : Nat) (h : c < 4294967296) : crc32Round c < 4294967296 := by
  unfold crc32Round
  split_ifs
  · exact xor_lt_u32 _ _ (by omega) (by norm_num)
  · omega

theorem crc32Rounds_lt (n : Nat) : ∀ c, c < 4294967296 → crc32Rounds n c < 4294967296 := by
  induction n with
  | zero => intro c h; exact h
  | succ m ih => intro c h; exact ih _ (crc32Round_lt c h)

theorem crc32Byte_lt (c b : Nat) (h : c < 4294967296) :
    crc32Byte c b < 4294967296 := by
  unfold crc32Byte
  refine crc32Rounds_lt 8 _ ?_
  refine xor_lt_u32 _ _ h ?_
  have : b % 256 < 256 := Nat.mod_lt _ (by norm_num)
  omega

theorem crc32Foldl_lt (l : List Nat) : ∀ c, c < 4294967296 →
    l.foldl crc32Byte c < 4294967296 := by
  induction l with
  | nil => intro c h; exact h
  | cons b t ih =>
    intro c h
    rw [List.foldl_cons]
    exact ih _ (crc32Byte_lt c b h)

theorem crc32_lt (data : List Nat) : crc32 data < 4294967296 := by
  unfold crc32
  exact xor_lt_u32 _ _ (crc32Foldl_lt data _ (by norm_num)) (by norm_num)

theorem fromWal_frame (J : List Nat) (hlen : J.length < 4294967296) :
    fromWalFormat (u32be J.length ++ (J ++ u32be (crc32 J))) = fromJsonBytes J := by
  have htake : (u32be J.length ++ (J ++ u32be (crc32 J))).take 4 = u32be J.length := by
    rw [show (4 : Nat) = (u32be J.length).length from (u32be_length _).symm]
    exact List.take_left _ _
  have hdropA : (u32be J.length ++ (J ++ u32be (crc32 J))).drop 4 =
      J ++ u32be (crc32 J) := by
    rw [show (4 : Nat) = (u32be J.length).length from (u32be_length _).symm]
    exact List.drop_left _ _
  have hdropAC : (u32be J.length ++ (J ++ u32be (crc32 J))).drop (4 + J.length) =
      u32be (crc32 J) := by
    rw [show u32be J.length ++ (J ++ u32be (crc32 J)) =
      (u32be J.length ++ J) ++ u32be (crc32 J) from by simp [List.append_assoc]]
    rw [show (4 + J.length) = (u32be J.length ++ J).length from by
      simp [List.length_append, u32be_length]]
    exact List.drop_left _ _
  unfold fromWalFormat
  rw [if_neg (by simp [List.length_append, u32be_length]; omega)]
  simp only [htake, u32beVal_u32be _ hlen, hdropA, hdropAC]
  rw [List.take_left' rfl]
  rw [show (u32be (crc32 J)).take 4 = u32be (crc32 J) from by
    rw [show (4 : Nat) = (u32be (crc32 J)).length from (u32be_length _).symm]
    exact List.take_length _]
  rw [if_neg (by simp [u32be_length])]
  rw [u32beVal_u32be _ (crc32_lt J)]
  rw [if_neg (by simp)]

/-- Frame round trip: `from_wal_format (to_wal_format c) = c` whenever the
frame exists (payload below `2^32`) and the strings are Unicode scalars. -/
theorem fromWal_toWal_aux (c : AOFCommand) (hv : ValidCmd c) :
    fromWalFormat (toWalFormat c) = some c := by
  obtain ⟨hcmd, hkey, hval, hlen⟩ := hv
  unfold toWalFormat
  rw [List.append_assoc, fromWal_frame _ hlen,
    fromJsonBytes_toJsonBytes c hcmd hkey hval]

/-- One well-formed frame at the head of the WAL: replay parses it and
continues with the remainder. -/
theorem replayAof_cons (J : List Nat) (hJ : J.length < 4294967296)
    (rest : List Nat) (c : AOFCommand) (hjson : fromJsonBytes J = some c) :
    replayAof ((u32be J.length ++ (J ++ u32be (crc32 J))) ++ rest) =
      (c :: (replayAof rest).1, (replayAof rest).2) := by
  have hFlen : (u32be J.length ++ (J ++ u32be (crc32 J))).length = 8 + J.length := by
    simp [List.length_append, u32be_length]
    omega
  have htake4 : ((u32be J.length ++ (J ++ u32be (crc32 J))) ++ rest).take 4 =
      u32be J.length := by
    rw [List.append_assoc, show (4 : Nat) = (u32be J.length).length from
      (u32be_length _).symm]
    exact List.take_left _ _
  rw [replayAof.eq_def]
  rw [if_neg (by simp [List.length_append, u32be_length]; try omega)]
  simp only [htake4, u32beVal_u32be _ hJ]
  rw [List.take_left' (by omega : (u32be J.length ++ (J ++ u32be (crc32 J))).length =
    4 + (J.length + 4))]
  rw [if_neg (by omega : ¬ (u32be J.length ++ (J ++ u32be (crc32 J))).length <
    J.length + 8)]
  rw [fromWal_frame J hJ, hjson]
  rw [List.drop_left' (by omega : (u32be J.length ++ (J ++ u32be (crc32 J))).length =
    J.length + 8)]

/-- The conditions under which `replay_aof` treats the head of the remaining
input as corrupt and stops: a non-empty tail that is shorter than a length
prefix, or shorter than its declared record, or whose record fails the
CRC/decode check. -/
def corruptTail (t : List Nat) : Prop :=
  t ≠ [] ∧
    (t.length < 4 ∨ t.length < u32beVal (t.take 4) + 8 ∨
      fromWalFormat (t.take (4 + (u32beVal (t.take 4) + 4))) = none)

instance (t : List Nat) : Decidable (corruptTail t) :=
  inferInstanceAs (Decidable (_ ∧ _))

/-- Replay of a corrupt tail applies nothing; the corruption counter is
incremented only when a full 4-byte length prefix was present. -/
theorem replayAof_corrupt (t : List Nat) (h : corruptTail t) :
    replayAof t = ([], if t.length < 4 then 0 else 1) := by
  obtain ⟨hne, hcor⟩ := h
  rw [replayAof.eq_def]
  by_cases h4 : t.length < 4
  · rw [if_pos h4, if_pos h4]
  · rw [if_neg h4, if_neg h4]
    by_cases hshort : t.length < u32beVal (t.take 4) + 8
    · rw [if_pos (by simp [List.length_take]; omega)]
    · rcases hcor with h | h | h
      · exact absurd h h4
      · exact absurd h hshort
      · rw [if_neg (by simp [List.length_take]; omega)]
        rw [h]


/-- A sample command (`SET a 1`) used to witness the persistence theorems. -/
def sampleCmd : AOFCommand := ⟨[83, 69, 84], [97], some [49], none, 0⟩

/-- An 8-byte corrupt tail: a complete length prefix declaring a zero-length
payload, followed by a CRC of 1, which does not match `crc32 [] = 0`. -/
def corruptTailSample : List Nat := [0, 0, 0, 0, 0, 0, 0, 1]

/-- C4: for every `AOFCommand` (with Unicode-scalar strings, payload within
the `u32` length prefix), decoding the WAL frame produced by encoding it —
length prefix, JSON payload, CRC32 over the payload bytes only — succeeds
and yields the command back. -/
theorem C4_wal_roundtrip (c : AOFCommand) (hv : ValidCmd c) :
    fromWalFormat (toWalFormat c) = some c := fromWal_toWal_aux c hv

theorem C4_wal_roundtrip_witness :
    ValidCmd sampleCmd ∧ fromWalFormat (toWalFormat sampleCmd) = some sampleCmd :=
  ⟨by decide, C4_wal_roundtrip sampleCmd (by decide)⟩

/-- C3 (amended): replay of a WAL made of well-formed frames for the
commands `cs` followed by a corrupt record applies exactly `cs`, in order,
and nothing at or after the corruption; `aof_corruption_skipped` is
incremented exactly once — except when fewer than 4 bytes of the corrupt
record exist (an incomplete length prefix), in which case replay stops
without incrementing the counter. -/
theorem C3_replay_prefix_and_counter (cs : List AOFCommand) (t : List Nat)
    (hval : ∀ c ∈ cs, ValidCmd c) (hcor : corruptTail t) :
    replayAof ((cs.map toWalFormat).flatten ++ t) =
      (cs, if t.length < 4 then 0 else 1) := by
  induction cs with
  | nil =>
    rw [List.map_nil, List.flatten_nil, List.nil_append]
    exact replayAof_corrupt t hcor
  | cons c rest ih =>
    obtain ⟨hcmd, hkey, hvalv, hlen⟩ := hval c (by simp)
    rw [List.map_cons, List.flatten_cons, List.append_assoc]
    rw [show toWalFormat c = u32be (toJsonBytes c).length ++
      (toJsonBytes c ++ u32be (crc32 (toJsonBytes c))) from by
        rw [toWalFormat, List.append_assoc]]
    rw [replayAof_cons _ hlen _ c (fromJsonBytes_toJsonBytes c hcmd hkey hvalv)]
    rw [ih (fun x hx => hval x (by simp [hx]))]

theorem C3_replay_prefix_and_counter_witness :
    (∀ c ∈ [sampleCmd], ValidCmd c) ∧ corruptTail corruptTailSample ∧
    replayAof (([sampleCmd].map toWalFormat).flatten ++ corruptTailSample) =
      ([sampleCmd], 1) := by
  refine ⟨by decide, by decide, ?_⟩
  have h := C3_replay_prefix_and_counter [sampleCmd] corruptTailSample
    (by decide) (by decide)
  simpa [corruptTailSample] using h

/-- C3 counterexample: a WAL whose first record is truncated to a single
byte (an incomplete length prefix).  The claim says a truncated first
record increments `aof_corruption_skipped`; the code breaks out of the
replay loop without touching the counter. -/
theorem C3_counterexample_truncated_prefix :
    replayAof [0] = ([], 0) ∧ (replayAof [0]).2 ≠ 1 := by
  have h := replayAof_corrupt [0] (by decide)
  refine ⟨by simpa using h, ?_⟩
  rw [h]
  simp

/-- The durability-relevant parts of a fresh `PersistenceManager` with
policy `always`: empty buffer, empty WAL file, no fsync yet. -/
def pInit : PState := ⟨FsyncPolicy.always, 1, [], [], 0, 0⟩

/-- C2: failing execution.  Under fsync policy `always`, `log_command` for
a single `SET a 1` on a fresh manager returns with the record still in the
in-memory buffer: nothing has been written to the WAL file descriptor and
no fsync has happened when the command returns (both happen only at the
next `flush_aof`, here triggered by the background daemon or back-pressure
only).  This contradicts the claim that the record is written and fsynced
before the command returns. -/
theorem C2_always_buffered_no_fsync :
    (logCommand 0 [83, 69, 84] [97] (some [49]) none pInit).file = [] ∧
    (logCommand 0 [83, 69, 84] [97] (some [49]) none pInit).fsyncCount = 0 ∧
    (logCommand 0 [83, 69, 84] [97] (some [49]) none pInit).buffer =
      [⟨[83, 69, 84], [97], some [49], none, 0⟩] ∧
    (flushAof 0 (logCommand 0 [83, 69, 84] [97] (some [49]) none pInit)).fsyncCount
      = 1 := by
  refine ⟨rfl, rfl, rfl, ?_⟩
  decide


/-!
## HashMapEngine (`api/hashmap_engine.py`)

A shard holds the three per-stripe dictionaries (`_data`, `_expiry`,
`_access_times`; the latter an `OrderedDict` whose iteration order — oldest
first — is the LRU order).  The expiration min-heap is modelled as a list
kept sorted by deadline (stable insertion): `heapq` pops entries in
nondecreasing deadline order, and nothing in the engine depends on the
order among equal deadlines.  `sys.getsizeof` is an abstract size function
in the configuration; Python's salted `hash` is an abstract hash function
there (see the shard-stability section).  The latency collector carries no
state relevant to any claim and is omitted.
-/

structure Shard where
  data : AList String
  expiry : AList Nat
  access : AList Nat
deriving DecidableEq

instance : Inhabited Shard := ⟨⟨[], [], []⟩⟩

structure EngineStats where
  sets : Nat
  gets : Nat
  deletes : Nat
  evictions : Nat
  expirations : Nat
  memoryBytes : Nat
deriving DecidableEq

structure EngineState where
  shards : List Shard
  heap : List (Nat × String × Nat)
  stats : EngineStats
deriving DecidableEq

/-- Engine construction parameters plus the ambient Python functions the
engine calls: `sys.getsizeof` on values and the process `hash` on keys. -/
structure EngineCfg where
  maxMemoryBytes : Nat
  evictionPolicy : String
  valSize : String → Nat
  pyhash : String → Nat

/-- `HashMapEngine.LOCK_STRIPE_COUNT`. -/
def LOCK_STRIPE_COUNT : Nat := 16

/-- `HashMapEngine._get_shard`: `hash(key) % LOCK_STRIPE_COUNT`. -/
def shardOf (cfg : EngineCfg) (k : String) : Nat :=
  cfg.pyhash k % LOCK_STRIPE_COUNT

def initState : EngineState :=
  ⟨List.replicate LOCK_STRIPE_COUNT ⟨[], [], []⟩, [], ⟨0, 0, 0, 0, 0, 0⟩⟩

def getShard (s : EngineState) (i : Nat) : Shard := s.shards.getD i ⟨[], [], []⟩

def setShard (s : EngineState) (i : Nat) (sh : Shard) : EngineState :=
  { s with shards := s.shards.set i sh }

/-- `heapq.heappush`, with the heap modelled as a deadline-sorted list
(stable insertion). -/
def heapPush : List (Nat × String × Nat) → (Nat × String × Nat) →
    List (Nat × String × Nat)
  | [], e => [e]
  | x :: t, e => if x.1 ≤ e.1 then x :: heapPush t e else e :: x :: t

/-- `OrderedDict.move_to_end` (value kept). -/
def alMoveToEnd (l : AList Nat) (k : String) : AList Nat :=
  match alGet l k with
  | none => l
  | some v => alErase l k ++ [(k, v)]

/-- The memory recomputation done at the end of `set`:
`sum(sys.getsizeof(v) for shard in data for v in shard.values())`. -/
def recomputeMemory (cfg : EngineCfg) (s : EngineState) : Nat :=
  (s.shards.map (fun sh => (sh.data.map (fun p => cfg.valSize p.2)).sum)).sum

/-- The scan of `_evict_lru`: the first shard (in stripe order) with a
non-empty access order, and its oldest key. -/
def findEvicteeAux : Nat → List Shard → Option (Nat × String)
  | _, [] => none
  | i, sh :: rest =>
    match sh.access with
    | (k, _) :: _ => some (i, k)
    | [] => findEvicteeAux (i + 1) rest

/-- `HashMapEngine._evict_lru`: evict the oldest key of the first non-empty
shard (then break). -/
def evictLru (s : EngineState) : EngineState :=
  match findEvicteeAux 0 s.shards with
  | none => s
  | some (i, k) =>
    let sh := getShard s i
    let s2 := setShard s i
      ⟨alErase sh.data k, alErase sh.expiry k, alErase sh.access k⟩
    { s2 with stats := { s2.stats with evictions := s2.stats.evictions + 1 } }

/-- `HashMapEngine.set`: LRU touch, store, expiry update and heap push,
then the eviction check against the *previous* `memory_bytes` statistic,
then the statistics update that recomputes `memory_bytes`. -/
def engineSetCore (cfg : EngineCfg) (now : Nat) (k : String) (v : String)
    (ttl : Option Nat) (s : EngineState) : EngineState :=
  let i := shardOf cfg k
  let sh := getShard s i
  let sh := { sh with access := alErase sh.access k ++ [(k, now)] }
  let sh := { sh with data := alSet sh.data k v }
  match ttl with
  | some t =>
    { setShard s i { sh with expiry := alSet sh.expiry k (now + t) } with
        heap := heapPush s.heap (now + t, k, i) }
  | none =>
    { setShard s i { sh with expiry := alErase sh.expiry k } with heap := s.heap }

def engineSet (cfg : EngineCfg) (now : Nat) (k : String) (v : String)
    (ttl : Option Nat) (s : EngineState) : EngineState :=
  let s := engineSetCore cfg now k v ttl s
  let s := if s.stats.memoryBytes > cfg.maxMemoryBytes ∧
      cfg.evictionPolicy = "lru" then evictLru s else s
  { s with stats := { s.stats with
      sets := s.stats.sets + 1
      memoryBytes := recomputeMemory cfg s } }

/-- The non-expired path of `get`: guarded LRU move-to-end, then the value
lookup and the `gets` counter. -/
def engineGetLive (now : Nat) (k : String) (i : Nat) (s : EngineState) :
    Option String × EngineState :=
  let sh := getShard s i
  let sh := if (alGet sh.access k).isSome
    then { sh with access := alMoveToEnd sh.access k } else sh
  let s2 := setShard s i sh
  ((alGet sh.data k),
    { s2 with stats := { s2.stats with gets := s2.stats.gets + 1 } })

/-- `HashMapEngine.get`: lazy expiration first (deleting from all three
maps and counting an expiration), else the live path. -/
def engineGet (cfg : EngineCfg) (now : Nat) (k : String) (s : EngineState) :
    Option String × EngineState :=
  let i := shardOf cfg k
  let sh := getShard s i
  match alGet sh.expiry k with
  | some dl =>
    if now ≥ dl then
      let s2 := setShard s i
        ⟨alErase sh.data k, alErase sh.expiry k, alErase sh.access k⟩
      (none, { s2 with stats :=
        { s2.stats with expirations := s2.stats.expirations + 1 } })
    else engineGetLive now k i s
  | none => engineGetLive now k i s

/-- `HashMapEngine.delete`. -/
def engineDelete (cfg : EngineCfg) (k : String) (s : EngineState) :
    Bool × EngineState :=
  let i := shardOf cfg k
  let sh := getShard s i
  let existed := (alGet sh.data k).isSome
  let s2 := setShard s i
    ⟨alErase sh.data k, alErase sh.expiry k, alErase sh.access k⟩
  (existed, { s2 with stats := { s2.stats with deletes := s2.stats.deletes + 1 } })

/-- `HashMapEngine.exists`: lazy expiration deletes from `_data` and
`_expiry` only (not from `_access_times`), and touches no counter. -/
def engineExists (cfg : EngineCfg) (now : Nat) (k : String) (s : EngineState) :
    Bool × EngineState :=
  let i := shardOf cfg k
  let sh := getShard s i
  let ex := (alGet sh.data k).isSome
  match alGet sh.expiry k with
  | some dl =>
    if ex ∧ now ≥ dl then
      (false, setShard s i
        { sh with data := alErase sh.data k, expiry := alErase sh.expiry k })
    else (ex, s)
  | none => (ex, s)

/-- `HashMapEngine.expire`: only the deadline (and a heap entry) change,
and only for a key present in `_data`. -/
def engineExpire (cfg : EngineCfg) (now : Nat) (k : String) (ttl : Nat)
    (s : EngineState) : Bool × EngineState :=
  let i := shardOf cfg k
  let sh := getShard s i
  if (alGet sh.data k).isSome then
    (true, { setShard s i { sh with expiry := alSet sh.expiry k (now + ttl) }
      with heap := heapPush s.heap (now + ttl, k, i) })
  else (false, s)

/-- `HashMapEngine.ttl`: `none` is the missing marker (reported as `-2`),
`some (-1)` means no TTL, otherwise the clamped remaining time.  The state
is untouched — in particular an expired entry is *not* deleted. -/
def engineTtl (cfg : EngineCfg) (now : Nat) (k : String) (s : EngineState) :
    Option Int × EngineState :=
  let i := shardOf cfg k
  let sh := getShard s i
  let r : Option Int :=
    if (alGet sh.data k).isSome then
      match alGet sh.expiry k with
      | none => some (-1)
      | some dl => some (max 0 ((dl : Int) - now))
    else none
  (r, s)

/-- `scanClassEnd l` splits `l` at its first `]`. -/
def scanClassEnd : List Char → Option (List Char × List Char)
  | [] => none
  | c :: t =>
    if c = ']' then some ([], t)
    else (scanClassEnd t).map (fun q => (c :: q.1, q.2))

/-- `fnmatch.translate`'s bracket scanning: after `[`, an optional `!`,
then a class body in which a `]` in the first position is literal; `none`
when no closing bracket exists (the `[` is then an ordinary character). -/
def findClass : List Char → Option (Bool × List Char × List Char)
  | [] => none
  | c0 :: t0 =>
    if c0 = '!' then
      match t0 with
      | [] => none
      | c :: t =>
        if c = ']' then (scanClassEnd t).map (fun q => (true, ']' :: q.1, q.2))
        else (scanClassEnd (c :: t)).map (fun q => (true, q.1, q.2))
    else
      if c0 = ']' then (scanClassEnd t0).map (fun q => (false, ']' :: q.1, q.2))
      else (scanClassEnd (c0 :: t0)).map (fun q => (false, q.1, q.2))

/-- Membership in a bracket class: `x-y` ranges, other characters literal
(a `-` first or last is literal). -/
def classMatch : List Char → Char → Bool
  | [], _ => false
  | lo :: '-' :: hi :: rest, c =>
    decide (lo ≤ c ∧ c ≤ hi) || classMatch rest c
  | x :: rest, c => x == c || classMatch rest c

theorem scanClassEnd_length (t : List Char) (content rest : List Char)
    (h : scanClassEnd t = some (content, rest)) : rest.length < t.length := by
  induction t generalizing content rest with
  | nil => simp [scanClassEnd] at h
  | cons c t2 ih =>
    simp only [scanClassEnd] at h
    by_cases hc : c = ']'
    · rw [if_pos hc] at h
      simp only [Option.some.injEq, Prod.mk.injEq] at h
      obtain ⟨-, h2⟩ := h
      subst h2
      simp
    · rw [if_neg hc] at h
      rcases hs : scanClassEnd t2 with _ | q
      · rw [hs] at h
        simp at h
      · rw [hs] at h
        simp only [Option.map_some', Option.some.injEq, Prod.mk.injEq] at h
        obtain ⟨-, h2⟩ := h
        subst h2
        exact Nat.lt_succ_of_lt (ih q.1 q.2 hs)

theorem findClass_length (p : List Char) (neg : Bool) (content rest : List Char)
    (h : findClass p = some (neg, content, rest)) : rest.length ≤ p.length := by
  match p with
  | [] => simp [findClass] at h
  | c0 :: t0 =>
    simp only [findClass] at h
    by_cases h0 : c0 = '!'
    · rw [if_pos h0] at h
      match t0 with
      | [] => simp at h
      | c :: t =>
        simp only [] at h
        by_cases hc : c = ']'
        · rw [if_pos hc] at h
          rcases hs : scanClassEnd t with _ | q
          · rw [hs] at h
            simp at h
          · rw [hs] at h
            simp only [Option.map_some', Option.some.injEq, Prod.mk.injEq] at h
            obtain ⟨-, -, h3⟩ := h
            subst h3
            have := scanClassEnd_length t q.1 q.2 hs
            simp only [List.length_cons]
            omega
        · rw [if_neg hc] at h
          rcases hs : scanClassEnd (c :: t) with _ | q
          · rw [hs] at h
            simp at h
          · rw [hs] at h
            simp only [Option.map_some', Option.some.injEq, Prod.mk.injEq] at h
            obtain ⟨-, -, h3⟩ := h
            subst h3
            have := scanClassEnd_length (c :: t) q.1 q.2 hs
            simp only [List.length_cons] at this ⊢
            omega
    · rw [if_neg h0] at h
      by_cases hc : c0 = ']'
      · rw [if_pos hc] at h
        rcases hs : scanClassEnd t0 with _ | q
        · rw [hs] at h
          simp at h
        · rw [hs] at h
          simp only [Option.map_some', Option.some.injEq, Prod.mk.injEq] at h
          obtain ⟨-, -, h3⟩ := h
          subst h3
          have := scanClassEnd_length t0 q.1 q.2 hs
          simp only [List.length_cons]
          omega
      · rw [if_neg hc] at h
        rcases hs : scanClassEnd (c0 :: t0) with _ | q
        · rw [hs] at h
          simp at h
        · rw [hs] at h
          simp only [Option.map_some', Option.some.injEq, Prod.mk.injEq] at h
          obtain ⟨-, -, h3⟩ := h
          subst h3
          have := scanClassEnd_length (c0 :: t0) q.1 q.2 hs
          simp only [List.length_cons] at this ⊢
          omega

/-- `fnmatch.fnmatch(key, pattern)` on POSIX (`normcase` is the identity):
the glob semantics of `translate` — `*` matches any sequence, `?` exactly
one character, `[...]`/`[!...]` a (possibly negated) class, an unmatched
`[` is literal, anything else is literal. -/
def globMatch : List Char → List Char → Bool
  | [], [] => true
  | [], _ :: _ => false
  | '*' :: pr, s =>
    globMatch pr s ||
      (match s with
       | [] => false
       | _ :: sr => globMatch ('*' :: pr) sr)
  | '?' :: pr, s =>
    (match s with
     | [] => false
     | _ :: sr => globMatch pr sr)
  | '[' :: pr, s =>
    (match hfc : findClass pr with
     | some (neg, content, prest) =>
       (match s with
        | [] => false
        | c :: sr => (classMatch content c != neg) && globMatch prest sr)
     | none =>
       (match s with
        | [] => false
        | c :: sr => (c == '[') && globMatch pr sr))
  | pc :: pr, s =>
    (match s with
     | [] => false
     | sc :: sr => (pc == sc) && globMatch pr sr)
termination_by p s => p.length + s.length
decreasing_by
  all_goals first
    | (simp only [List.length_cons]; omega)
    | (have hle := findClass_length _ _ _ _ (by assumption)
       simp only [List.length_cons]
       omega)

/-- The per-shard body of `HashMapEngine.keys`: iterate the data keys in
insertion order, skip a key whose deadline has passed, keep those matching
the pattern under `fnmatch`. -/
def liveKeysShard (now : Nat) (p : String) (sh : Shard) : List String :=
  (sh.data.map Prod.fst).filter (fun k =>
    (match alGet sh.expiry k with
     | some dl => decide (now < dl)
     | none => true) && globMatch p.data k.data)

/-- `HashMapEngine.keys`: shards in stripe order. -/
def engineKeys (now : Nat) (p : String) (s : EngineState) : List String :=
  (s.shards.map (liveKeysShard now p)).flatten

/-- `HashMapEngine.dbsize`: plain sizes, expired keys included. -/
def engineDbsize (s : EngineState) : Nat :=
  (s.shards.map (fun sh => sh.data.length)).sum

/-- `HashMapEngine.flush`. -/
def engineFlush (s : EngineState) : EngineState :=
  { s with shards := s.shards.map (fun _ => ⟨[], [], []⟩), heap := [] }

/-- The drain loop of `_cleanup_expired`: pop heap entries while due; an
entry deletes its key from `_data` and `_expiry` (not `_access_times`)
only if the key is present and the shard's deadline still equals the
entry's (the authoritative check). -/
def cleanupGo (now : Nat) : List (Nat × String × Nat) → List Shard →
    List Shard × List (Nat × String × Nat)
  | [], shards => (shards, [])
  | (d, k, i) :: rest, shards =>
    if d ≤ now then
      let sh := shards.getD i ⟨[], [], []⟩
      let shards2 :=
        if (alGet sh.data k).isSome ∧ alGet sh.expiry k = some d then
          shards.set i { sh with
            data := alErase sh.data k
            expiry := alErase sh.expiry k }
        else shards
      cleanupGo now rest shards2
    else (shards, (d, k, i) :: rest)

/-- `HashMapEngine._cleanup_expired` (one wake-up of the TTL daemon). -/
def cleanupExpired (now : Nat) (s : EngineState) : EngineState :=
  let r := cleanupGo now s.heap s.shards
  { s with shards := r.1, heap := r.2 }

/-- The engine's command surface plus the background expiration sweep. -/
inductive EngineOp where
  | set (k v : String) (ttl : Option Nat)
  | get (k : String)
  | del (k : String)
  | existsQ (k : String)
  | expireOp (k : String) (ttl : Nat)
  | ttlOp (k : String)
  | keysOp (p : String)
  | dbsizeOp
  | flushOp
  | cleanupOp
deriving DecidableEq

/-- Apply one timed operation, discarding its return value.  `keys`,
`dbsize` and `ttl` do not mutate the store. -/
def applyOp (cfg : EngineCfg) (s : EngineState) : Nat × EngineOp → EngineState
  | (now, .set k v ttl) => engineSet cfg now k v ttl s
  | (now, .get k) => (engineGet cfg now k s).2
  | (_, .del k) => (engineDelete cfg k s).2
  | (now, .existsQ k) => (engineExists cfg now k s).2
  | (now, .expireOp k t) => (engineExpire cfg now k t s).2
  | (now, .ttlOp k) => (engineTtl cfg now k s).2
  | (_, .keysOp _) => s
  | (_, .dbsizeOp) => s
  | (_, .flushOp) => engineFlush s
  | (now, .cleanupOp) => cleanupExpired now s

def applyTrace (cfg : EngineCfg) (s : EngineState)
    (tops : List (Nat × EngineOp)) : EngineState :=
  tops.foldl (applyOp cfg) s

/-- The stored value of `k`, read from its shard. -/
def stateData (cfg : EngineCfg) (s : EngineState) (k : String) : Option String :=
  alGet (getShard s (shardOf cfg k)).data k

/-- The stored deadline of `k`, read from its shard. -/
def stateExpiry (cfg : EngineCfg) (s : EngineState) (k : String) : Option Nat :=
  alGet (getShard s (shardOf cfg k)).expiry k

/-- Whether an operation is a `SET` of precisely the key `k`. -/
def isSetTo (k : String) : EngineOp → Bool
  | .set k2 _ _ => k2 == k
  | _ => false

/-- `k`'s data entry survives every step of the trace: no step deletes,
expires or evicts it. -/
def noRemoval (cfg : EngineCfg) (k : String) :
    EngineState → List (Nat × EngineOp) → Bool
  | _, [] => true
  | s, top :: rest =>
    (stateData cfg (applyOp cfg s top) k).isSome &&
      noRemoval cfg k (applyOp cfg s top) rest

/-- The entry with this optional deadline has not expired at time `t`. -/
def LiveAt : Option Nat → Nat → Prop
  | none, _ => True
  | some d, t => t < d

instance : (o : Option Nat) → (t : Nat) → Decidable (LiveAt o t)
  | none, _ => .isTrue trivial
  | some d, t => Nat.decLt t d

/-!
## Well-formedness and the expiry-implies-data invariant

`WFShard` records what CPython guarantees of every `dict`: its key list has
no duplicates.  `InvShard` is the claimed invariant: every key of `_expiry`
is a key of `_data`.  `GoodState` asserts both of every shard.
-/

def WFShard (sh : Shard) : Prop :=
  (alKeys sh.data).Nodup ∧ (alKeys sh.expiry).Nodup ∧ (alKeys sh.access).Nodup

instance (sh : Shard) : Decidable (WFShard sh) :=
  inferInstanceAs (Decidable (_ ∧ _ ∧ _))

def InvShard (sh : Shard) : Prop :=
  ∀ j ∈ alKeys sh.expiry, (alGet sh.data j).isSome

instance (sh : Shard) : Decidable (InvShard sh) :=
  inferInstanceAs (Decidable (∀ j ∈ alKeys sh.expiry, (alGet sh.data j).isSome))

def GoodShard (sh : Shard) : Prop := WFShard sh ∧ InvShard sh

instance (sh : Shard) : Decidable (GoodShard sh) :=
  inferInstanceAs (Decidable (_ ∧ _))

def GoodState (s : EngineState) : Prop := ∀ sh ∈ s.shards, GoodShard sh

instance (s : EngineState) : Decidable (GoodState s) :=
  inferInstanceAs (Decidable (∀ sh ∈ s.shards, GoodShard sh))

theorem mem_alKeys_alSet {V : Type} (l : AList V) (k : String) (v : V)
    (j : String) : j ∈ alKeys (alSet l k v) ↔ j = k ∨ j ∈ alKeys l := by
  rw [mem_alKeys_iff_isSome, alGet_alSet]
  by_cases h : k = j
  · subst h
    simp
  · rw [if_neg h, mem_alKeys_iff_isSome]
    constructor
    · exact fun hs => Or.inr hs
    · rintro (h1 | h1)
      · exact absurd h1.symm h
      · exact h1

theorem mem_alKeys_of_alErase {V : Type} (l : AList V) (k j : String)
    (h : j ∈ alKeys (alErase l k)) : j ∈ alKeys l :=
  (alKeys_alErase_sublist l k).subset h

theorem nodup_touch (a : AList Nat) (k : String) (now : Nat)
    (h : (alKeys a).Nodup) : (alKeys (alErase a k ++ [(k, now)])).Nodup := by
  rw [alKeys, List.map_append]
  refine List.Nodup.append (alKeys_alErase_nodup _ _ h)
    (List.nodup_singleton _) ?_
  intro x hx hx2
  simp only [List.map_cons, List.map_nil, List.mem_singleton] at hx2
  subst hx2
  exact not_mem_alKeys_alErase_self _ _ h hx

theorem nodup_moveToEnd (a : AList Nat) (k : String)
    (h : (alKeys a).Nodup) : (alKeys (alMoveToEnd a k)).Nodup := by
  unfold alMoveToEnd
  cases alGet a k with
  | none => exact h
  | some v => exact nodup_touch a k v h

theorem inv_alSet_both (d : AList String) (e : AList Nat) (k : String)
    (v : String) (dl : Nat) (h : ∀ j ∈ alKeys e, (alGet d j).isSome) :
    ∀ j ∈ alKeys (alSet e k dl), (alGet (alSet d k v) j).isSome := by
  intro j hj
  rw [alGet_alSet]
  by_cases hk : k = j
  · simp [hk]
  · rw [if_neg hk]
    rcases (mem_alKeys_alSet e k dl j).mp hj with h1 | h1
    · exact absurd h1.symm hk
    · exact h j h1

theorem inv_alSet_data_alErase_expiry (d : AList String) (e : AList Nat)
    (k : String) (v : String) (h : ∀ j ∈ alKeys e, (alGet d j).isSome) :
    ∀ j ∈ alKeys (alErase e k), (alGet (alSet d k v) j).isSome := by
  intro j hj
  rw [alGet_alSet]
  by_cases hk : k = j
  · simp [hk]
  · rw [if_neg hk]
    exact h j (mem_alKeys_of_alErase e k j hj)

theorem inv_alErase_both (d : AList String) (e : AList Nat) (k : String)
    (he : (alKeys e).Nodup) (h : ∀ j ∈ alKeys e, (alGet d j).isSome) :
    ∀ j ∈ alKeys (alErase e k), (alGet (alErase d k) j).isSome := by
  intro j hj
  have hjk : j ≠ k := by
    intro hjeq
    subst hjeq
    exact not_mem_alKeys_alErase_self _ _ he hj
  rw [alGet_alErase_ne _ _ _ hjk]
  exact h j (mem_alKeys_of_alErase e k j hj)

theorem inv_alSet_expiry_of_mem (d : AList String) (e : AList Nat)
    (k : String) (dl : Nat) (hk : (alGet d k).isSome)
    (h : ∀ j ∈ alKeys e, (alGet d j).isSome) :
    ∀ j ∈ alKeys (alSet e k dl), (alGet d j).isSome := by
  intro j hj
  rcases (mem_alKeys_alSet e k dl j).mp hj with h1 | h1
  · exact h1 ▸ hk
  · exact h j h1

theorem goodShard_empty : GoodShard ⟨[], [], []⟩ := by decide

theorem goodShard_eraseAll (sh : Shard) (k : String) (h : GoodShard sh) :
    GoodShard ⟨alErase sh.data k, alErase sh.expiry k, alErase sh.access k⟩ := by
  obtain ⟨⟨hd, he, ha⟩, hI⟩ := h
  exact ⟨⟨alKeys_alErase_nodup _ _ hd, alKeys_alErase_nodup _ _ he,
    alKeys_alErase_nodup _ _ ha⟩, inv_alErase_both _ _ _ he hI⟩

theorem goodShard_eraseDataExpiry (sh : Shard) (k : String) (h : GoodShard sh) :
    GoodShard ⟨alErase sh.data k, alErase sh.expiry k, sh.access⟩ := by
  obtain ⟨⟨hd, he, ha⟩, hI⟩ := h
  exact ⟨⟨alKeys_alErase_nodup _ _ hd, alKeys_alErase_nodup _ _ he, ha⟩,
    inv_alErase_both _ _ _ he hI⟩

theorem goodState_setShard (s : EngineState) (i : Nat) (sh : Shard)
    (h : GoodState s) (hsh : GoodShard sh) : GoodState (setShard s i sh) := by
  intro x hx
  simp only [setShard] at hx
  rcases List.mem_or_eq_of_mem_set hx with h1 | h1
  · exact h x h1
  · exact h1 ▸ hsh

theorem goodShard_getD (shards : List Shard) (i : Nat)
    (h : ∀ x ∈ shards, GoodShard x) : GoodShard (shards.getD i ⟨[], [], []⟩) := by
  rw [List.getD_eq_getElem?_getD]
  rcases hlt : shards[i]? with _ | sh
  · exact goodShard_empty
  · exact h sh (List.getElem?_mem hlt)

theorem goodShard_getShard (s : EngineState) (i : Nat) (h : GoodState s) :
    GoodShard (getShard s i) := goodShard_getD s.shards i h

theorem goodState_evictLru (s : EngineState) (h : GoodState s) :
    GoodState (evictLru s) := by
  unfold evictLru
  rcases findEvicteeAux 0 s.shards with _ | ⟨i, k⟩
  · exact h
  · exact goodState_setShard s i _ h
      (goodShard_eraseAll (getShard s i) k (goodShard_getShard s i h))

theorem goodState_engineSetCore (cfg : EngineCfg) (now : Nat) (k v : String)
    (ttl : Option Nat) (s : EngineState) (h : GoodState s) :
    GoodState (engineSetCore cfg now k v ttl s) := by
  obtain ⟨⟨hd, he, ha⟩, hI⟩ := goodShard_getShard s (shardOf cfg k) h
  have hT := nodup_touch (getShard s (shardOf cfg k)).access k now ha
  cases ttl with
  | some t =>
    exact goodState_setShard s _ _ h
      ⟨⟨alKeys_alSet_nodup _ _ _ hd, alKeys_alSet_nodup _ _ _ he, hT⟩,
        inv_alSet_both _ _ _ _ _ hI⟩
  | none =>
    exact goodState_setShard s _ _ h
      ⟨⟨alKeys_alSet_nodup _ _ _ hd, alKeys_alErase_nodup _ _ he, hT⟩,
        inv_alSet_data_alErase_expiry _ _ _ _ hI⟩

theorem goodState_ite (c : Prop) [Decidable c] (s1 s2 : EngineState)
    (h1 : GoodState s1) (h2 : GoodState s2) : GoodState (if c then s1 else s2) := by
  split
  · exact h1
  · exact h2

theorem goodState_engineSet (cfg : EngineCfg) (now : Nat) (k v : String)
    (ttl : Option Nat) (s : EngineState) (h : GoodState s) :
    GoodState (engineSet cfg now k v ttl s) := by
  have h1 := goodState_engineSetCore cfg now k v ttl s h
  exact goodState_ite _ _ _ (goodState_evictLru _ h1) h1

theorem goodState_engineGetLive (now : Nat) (k : String) (i : Nat)
    (s : EngineState) (h : GoodState s) : GoodState (engineGetLive now k i s).2 := by
  refine goodState_setShard s i _ h ?_
  obtain ⟨⟨hd, he, ha⟩, hI⟩ := goodShard_getShard s i h
  split
  · exact ⟨⟨hd, he, nodup_moveToEnd _ _ ha⟩, hI⟩
  · exact ⟨⟨hd, he, ha⟩, hI⟩

theorem goodState_engineGet (cfg : EngineCfg) (now : Nat) (k : String)
    (s : EngineState) (h : GoodState s) : GoodState (engineGet cfg now k s).2 := by
  unfold engineGet
  simp only []
  split
  · split
    · exact goodState_setShard s _ _ h
        (goodShard_eraseAll _ k (goodShard_getShard s _ h))
    · exact goodState_engineGetLive now k _ s h
  · exact goodState_engineGetLive now k _ s h
theorem goodState_engineDelete (cfg : EngineCfg) (k : String)
    (s : EngineState) (h : GoodState s) : GoodState (engineDelete cfg k s).2 :=
  goodState_setShard s _ _ h
    (goodShard_eraseAll _ k (goodShard_getShard s _ h))

theorem goodState_engineExists (cfg : EngineCfg) (now : Nat) (k : String)
    (s : EngineState) (h : GoodState s) : GoodState (engineExists cfg now k s).2 := by
  unfold engineExists
  simp only []
  split
  · split
    · exact goodState_setShard s _ _ h
        (goodShard_eraseDataExpiry _ k (goodShard_getShard s _ h))
    · exact h
  · exact h

theorem goodState_engineExpire (cfg : EngineCfg) (now : Nat) (k : String)
    (ttl : Nat) (s : EngineState) (h : GoodState s) :
    GoodState (engineExpire cfg now k ttl s).2 := by
  unfold engineExpire
  simp only []
  split
  · rename_i hsome
    obtain ⟨⟨hd, he, ha⟩, hI⟩ := goodShard_getShard s (shardOf cfg k) h
    exact goodState_setShard s _ _ h
      ⟨⟨hd, alKeys_alSet_nodup _ _ _ he, ha⟩,
        inv_alSet_expiry_of_mem _ _ _ _ hsome hI⟩
  · exact h

theorem goodState_engineTtl (cfg : EngineCfg) (now : Nat) (k : String)
    (s : EngineState) (h : GoodState s) : GoodState (engineTtl cfg now k s).2 := h

theorem goodState_engineFlush (s : EngineState) : GoodState (engineFlush s) := by
  intro x hx
  simp only [engineFlush] at hx
  rcases List.mem_map.mp hx with ⟨a, -, hax⟩
  exact hax ▸ goodShard_empty

theorem goodState_cleanupGo (now : Nat) :
    ∀ (hp : List (Nat × String × Nat)) (shards : List Shard),
    (∀ x ∈ shards, GoodShard x) → ∀ x ∈ (cleanupGo now hp shards).1, GoodShard x := by
  intro hp
  induction hp with
  | nil => exact fun shards h => h
  | cons e rest ih =>
    intro shards h
    obtain ⟨d, k, i⟩ := e
    unfold cleanupGo
    split
    · refine ih _ ?_
      split
      · intro x hx
        rcases List.mem_or_eq_of_mem_set hx with h1 | h1
        · exact h x h1
        · exact h1 ▸ goodShard_eraseDataExpiry _ k (goodShard_getD shards i h)
      · exact h
    · exact h

theorem goodState_cleanupExpired (now : Nat) (s : EngineState)
    (h : GoodState s) : GoodState (cleanupExpired now s) :=
  goodState_cleanupGo now s.heap s.shards h

theorem goodState_applyOp (cfg : EngineCfg) (s : EngineState)
    (top : Nat × EngineOp) (h : GoodState s) : GoodState (applyOp cfg s top) := by
  obtain ⟨now, op⟩ := top
  cases op with
  | set k v ttl => exact goodState_engineSet cfg now k v ttl s h
  | get k => exact goodState_engineGet cfg now k s h
  | del k => exact goodState_engineDelete cfg k s h
  | existsQ k => exact goodState_engineExists cfg now k s h
  | expireOp k t => exact goodState_engineExpire cfg now k t s h
  | ttlOp k => exact goodState_engineTtl cfg now k s h
  | keysOp p => exact h
  | dbsizeOp => exact h
  | flushOp => exact goodState_engineFlush s
  | cleanupOp => exact goodState_cleanupExpired now s h

theorem goodState_applyTrace (cfg : EngineCfg) (tops : List (Nat × EngineOp)) :
    ∀ (s : EngineState), GoodState s → GoodState (applyTrace cfg s tops) := by
  induction tops with
  | nil => exact fun s h => h
  | cons t rest ih =>
    intro s h
    exact ih _ (goodState_applyOp cfg s t h)

theorem goodState_initState : GoodState initState := by decide
/-- Constant-hash test configuration: every key lands in shard 0, values
are sized by length, no memory limit. -/
def cfgW : EngineCfg := ⟨1000000, "lru", fun v => v.length, fun _ => 0⟩

/-- C10: in every reachable state of the engine, each shard satisfies the
expiry-implies-data invariant, and every operation (SET, GET, DEL, EXISTS,
EXPIRE, TTL, KEYS, DBSIZE, FLUSH, LRU eviction inside SET, and the
background expiration sweep) preserves it — stated as: any state whose
shards are well-formed (duplicate-free CPython dicts) and satisfy the
invariant steps to such a state, and every state reached from the initial
state by a trace of operations satisfies the invariant. -/
theorem C10_expiry_keys_have_data (cfg : EngineCfg) :
    (∀ (s : EngineState) (top : Nat × EngineOp),
      GoodState s → GoodState (applyOp cfg s top)) ∧
    (∀ (tops : List (Nat × EngineOp)),
      ∀ sh ∈ (applyTrace cfg initState tops).shards,
        ∀ j ∈ alKeys sh.expiry, (alGet sh.data j).isSome) :=
  ⟨fun s top h => goodState_applyOp cfg s top h,
   fun tops sh hsh j hj =>
    (goodState_applyTrace cfg tops initState goodState_initState sh hsh).2 j hj⟩

theorem C10_expiry_keys_have_data_witness :
    GoodState (applyOp cfgW initState
      (0, EngineOp.set ("a") ("v") (some 5))) ∧
    ∀ sh ∈ (applyTrace cfgW initState
        [(0, EngineOp.set ("a") ("v") (some 5))]).shards,
      ∀ j ∈ alKeys sh.expiry, (alGet sh.data j).isSome :=
  ⟨(C10_expiry_keys_have_data cfgW).1 initState
      (0, EngineOp.set ("a") ("v") (some 5)) (by decide),
   (C10_expiry_keys_have_data cfgW).2
      [(0, EngineOp.set ("a") ("v") (some 5))]⟩

theorem getShard_setShard (s : EngineState) (i j : Nat) (sh : Shard) :
    getShard (setShard s i sh) j =
      if i = j ∧ i < s.shards.length then sh else getShard s j := by
  unfold getShard setShard
  simp only []
  rw [List.getD_eq_getElem?_getD, List.getD_eq_getElem?_getD, List.getElem?_set]
  by_cases hij : i = j
  · subst hij
    by_cases hlt : i < s.shards.length
    · simp [hlt]
    · simp only [hlt, if_false, and_true, false_and, if_neg hlt]
      rw [List.getElem?_eq_none (by omega)]
      rfl
  · simp [hij]

theorem stateData_set_other (cfg : EngineCfg) (s : EngineState) (i : Nat)
    (sh : Shard) (k : String) (hdat : sh.data = (getShard s i).data) :
    stateData cfg (setShard s i sh) k = stateData cfg s k := by
  unfold stateData
  rw [getShard_setShard]
  split
  · rename_i hc
    rw [hdat, hc.1]
  · rfl

theorem stateData_evictLru_or (cfg : EngineCfg) (s : EngineState) (k : String)
    (h : GoodState s) :
    stateData cfg (evictLru s) k = stateData cfg s k ∨
      stateData cfg (evictLru s) k = none := by
  unfold evictLru
  rcases findEvicteeAux 0 s.shards with _ | ⟨i, k2⟩
  · exact Or.inl rfl
  · simp only []
    show stateData cfg (setShard s i
      ⟨alErase (getShard s i).data k2, alErase (getShard s i).expiry k2,
        alErase (getShard s i).access k2⟩) k = stateData cfg s k ∨
      stateData cfg (setShard s i
      ⟨alErase (getShard s i).data k2, alErase (getShard s i).expiry k2,
        alErase (getShard s i).access k2⟩) k = none
    unfold stateData
    rw [getShard_setShard]
    split
    · rename_i hc
      by_cases hk : k = k2
      · subst hk
        right
        exact alGet_alErase_self _ _ ((goodShard_getShard s i h).1).1
      · left
        rw [hc.1]
        exact alGet_alErase_ne _ _ _ hk
    · exact Or.inl rfl

theorem stateData_engineSetCore_self (cfg : EngineCfg) (now : Nat)
    (k v : String) (ttl : Option Nat) (s : EngineState)
    (hi : shardOf cfg k < s.shards.length) :
    stateData cfg (engineSetCore cfg now k v ttl s) k = some v := by
  cases ttl with
  | some t =>
    show stateData cfg (setShard s (shardOf cfg k) _) k = some v
    unfold stateData
    rw [getShard_setShard, if_pos ⟨rfl, hi⟩]
    simp [alGet_alSet]
  | none =>
    show stateData cfg (setShard s (shardOf cfg k) _) k = some v
    unfold stateData
    rw [getShard_setShard, if_pos ⟨rfl, hi⟩]
    simp [alGet_alSet]

theorem stateData_engineSet_isSome (cfg : EngineCfg) (now : Nat)
    (k v : String) (ttl : Option Nat) (s : EngineState) (hG : GoodState s)
    (hi : shardOf cfg k < s.shards.length)
    (hsurv : (stateData cfg (engineSet cfg now k v ttl s) k).isSome) :
    stateData cfg (engineSet cfg now k v ttl s) k = some v := by
  have hcore := stateData_engineSetCore_self cfg now k v ttl s hi
  have hGc := goodState_engineSetCore cfg now k v ttl s hG
  have heq : stateData cfg (engineSet cfg now k v ttl s) k =
      stateData cfg (if (engineSetCore cfg now k v ttl s).stats.memoryBytes >
          cfg.maxMemoryBytes ∧ cfg.evictionPolicy = "lru" then
        evictLru (engineSetCore cfg now k v ttl s)
      else engineSetCore cfg now k v ttl s) k := rfl
  rw [heq] at hsurv ⊢
  split at hsurv
  · rename_i hc
    rw [if_pos hc] at *
    rcases stateData_evictLru_or cfg _ k hGc with ho | ho
    · rw [ho, hcore]
    · rw [ho] at hsurv
      simp at hsurv
  · rename_i hc
    rw [if_neg hc]
    exact hcore
theorem getD_set_shard (l : List Shard) (i j : Nat) (sh : Shard) :
    (l.set i sh).getD j ⟨[], [], []⟩ =
      if i = j ∧ i < l.length then sh else l.getD j ⟨[], [], []⟩ := by
  rw [List.getD_eq_getElem?_getD, List.getD_eq_getElem?_getD, List.getElem?_set]
  by_cases hij : i = j
  · subst hij
    by_cases hlt : i < l.length
    · simp [hlt]
    · simp only [hlt, if_false, and_true, false_and, if_neg hlt]
      rw [List.getElem?_eq_none (by omega)]
      rfl
  · simp [hij]

theorem stateData_congr (cfg : EngineCfg) (s1 s2 : EngineState) (k : String)
    (h : s1.shards = s2.shards) : stateData cfg s1 k = stateData cfg s2 k := by
  unfold stateData getShard
  rw [h]

theorem stateData_setShard_eraseData_or (cfg : EngineCfg) (s : EngineState)
    (i : Nat) (k2 k : String) (e : AList Nat) (a : AList Nat)
    (s2 : EngineState)
    (h2 : s2.shards =
      (setShard s i ⟨alErase (getShard s i).data k2, e, a⟩).shards)
    (h : GoodState s) :
    stateData cfg s2 k = stateData cfg s k ∨ stateData cfg s2 k = none := by
  rw [stateData_congr cfg s2
    (setShard s i ⟨alErase (getShard s i).data k2, e, a⟩) k h2]
  unfold stateData
  rw [getShard_setShard]
  split
  · rename_i hc
    by_cases hk : k = k2
    · subst hk
      exact Or.inr (alGet_alErase_self _ _ (goodShard_getShard s i h).1.1)
    · left
      rw [hc.1]
      exact alGet_alErase_ne _ _ _ hk
  · exact Or.inl rfl

theorem stateData_setShard_keepData (cfg : EngineCfg) (s : EngineState)
    (i : Nat) (sh : Shard) (k : String) (s2 : EngineState)
    (h2 : s2.shards = (setShard s i sh).shards)
    (hdat : sh.data = (getShard s i).data) :
    stateData cfg s2 k = stateData cfg s k := by
  rw [stateData_congr cfg s2 (setShard s i sh) k h2]
  exact stateData_set_other cfg s i sh k hdat

theorem stateData_engineSetCore_other (cfg : EngineCfg) (now : Nat)
    (k2 v2 : String) (ttl : Option Nat) (s : EngineState) (k : String)
    (hne : k2 ≠ k) :
    stateData cfg (engineSetCore cfg now k2 v2 ttl s) k = stateData cfg s k := by
  cases ttl with
  | some t =>
    refine (stateData_congr cfg _ (setShard s (shardOf cfg k2)
      ⟨alSet (getShard s (shardOf cfg k2)).data k2 v2,
        alSet (getShard s (shardOf cfg k2)).expiry k2 (now + t),
        alErase (getShard s (shardOf cfg k2)).access k2 ++ [(k2, now)]⟩) k
      rfl).trans ?_
    unfold stateData
    rw [getShard_setShard]
    split
    · rename_i hc
      rw [alGet_alSet, if_neg hne, hc.1]
    · rfl
  | none =>
    refine (stateData_congr cfg _ (setShard s (shardOf cfg k2)
      ⟨alSet (getShard s (shardOf cfg k2)).data k2 v2,
        alErase (getShard s (shardOf cfg k2)).expiry k2,
        alErase (getShard s (shardOf cfg k2)).access k2 ++ [(k2, now)]⟩) k
      rfl).trans ?_
    unfold stateData
    rw [getShard_setShard]
    split
    · rename_i hc
      rw [alGet_alSet, if_neg hne, hc.1]
    · rfl

theorem stateData_engineSet_other_or (cfg : EngineCfg) (now : Nat)
    (k2 v2 : String) (ttl : Option Nat) (s : EngineState) (k : String)
    (hG : GoodState s) (hne : k2 ≠ k) :
    stateData cfg (engineSet cfg now k2 v2 ttl s) k = stateData cfg s k ∨
      stateData cfg (engineSet cfg now k2 v2 ttl s) k = none := by
  have hcore := stateData_engineSetCore_other cfg now k2 v2 ttl s k hne
  have hGc := goodState_engineSetCore cfg now k2 v2 ttl s hG
  have heq : stateData cfg (engineSet cfg now k2 v2 ttl s) k =
      stateData cfg (if (engineSetCore cfg now k2 v2 ttl s).stats.memoryBytes >
          cfg.maxMemoryBytes ∧ cfg.evictionPolicy = "lru" then
        evictLru (engineSetCore cfg now k2 v2 ttl s)
      else engineSetCore cfg now k2 v2 ttl s) k := rfl
  rw [heq]
  split
  · rcases stateData_evictLru_or cfg _ k hGc with ho | ho
    · rw [ho, hcore]
      exact Or.inl rfl
    · exact Or.inr ho
  · exact Or.inl hcore

theorem stateData_engineGetLive (cfg : EngineCfg) (now : Nat) (k2 : String)
    (i : Nat) (s : EngineState) (k : String) :
    stateData cfg (engineGetLive now k2 i s).2 k = stateData cfg s k :=
  stateData_setShard_keepData cfg s i _ k _ rfl (by split <;> rfl)

theorem stateData_engineGet_or (cfg : EngineCfg) (now : Nat) (k2 : String)
    (s : EngineState) (k : String) (hG : GoodState s) :
    stateData cfg (engineGet cfg now k2 s).2 k = stateData cfg s k ∨
      stateData cfg (engineGet cfg now k2 s).2 k = none := by
  unfold engineGet
  simp only []
  split
  · split
    · exact stateData_setShard_eraseData_or cfg s _ k2 k _ _ _ rfl hG
    · rw [stateData_engineGetLive]
      exact Or.inl rfl
  · rw [stateData_engineGetLive]
    exact Or.inl rfl

theorem stateData_engineDelete_or (cfg : EngineCfg) (k2 : String)
    (s : EngineState) (k : String) (hG : GoodState s) :
    stateData cfg (engineDelete cfg k2 s).2 k = stateData cfg s k ∨
      stateData cfg (engineDelete cfg k2 s).2 k = none :=
  stateData_setShard_eraseData_or cfg s _ k2 k _ _ _ rfl hG

theorem stateData_engineExists_or (cfg : EngineCfg) (now : Nat) (k2 : String)
    (s : EngineState) (k : String) (hG : GoodState s) :
    stateData cfg (engineExists cfg now k2 s).2 k = stateData cfg s k ∨
      stateData cfg (engineExists cfg now k2 s).2 k = none := by
  unfold engineExists
  simp only []
  split
  · split
    · exact stateData_setShard_eraseData_or cfg s _ k2 k _ _ _ rfl hG
    · exact Or.inl rfl
  · exact Or.inl rfl

theorem stateData_engineExpire (cfg : EngineCfg) (now : Nat) (k2 : String)
    (ttl : Nat) (s : EngineState) (k : String) :
    stateData cfg (engineExpire cfg now k2 ttl s).2 k = stateData cfg s k := by
  unfold engineExpire
  simp only []
  split
  · exact stateData_setShard_keepData cfg s (shardOf cfg k2) _ k _ rfl rfl
  · rfl

theorem getShard_engineFlush (s : EngineState) (j : Nat) :
    getShard (engineFlush s) j = ⟨[], [], []⟩ := by
  unfold getShard engineFlush
  simp only []
  rw [List.getD_eq_getElem?_getD]
  rcases h : (List.map (fun _ => (⟨[], [], []⟩ : Shard)) s.shards)[j]? with _ | sh
  · rfl
  · have hm := List.getElem?_mem h
    rcases List.mem_map.mp hm with ⟨a, -, ha⟩
    simp [← ha]

theorem stateData_engineFlush (cfg : EngineCfg) (s : EngineState) (k : String) :
    stateData cfg (engineFlush s) k = none := by
  unfold stateData
  rw [getShard_engineFlush]
  rfl

theorem stateData_cleanupGo_or (now : Nat) :
    ∀ (hp : List (Nat × String × Nat)) (shards : List Shard),
    (∀ x ∈ shards, GoodShard x) → ∀ (k : String) (j : Nat),
      alGet (((cleanupGo now hp shards).1).getD j ⟨[], [], []⟩).data k =
          alGet ((shards.getD j ⟨[], [], []⟩)).data k ∨
        alGet (((cleanupGo now hp shards).1).getD j ⟨[], [], []⟩).data k =
          none := by
  intro hp
  induction hp with
  | nil => exact fun shards h k j => Or.inl rfl
  | cons e rest ih =>
    intro shards h k j
    obtain ⟨d, k2, i⟩ := e
    unfold cleanupGo
    split
    · simp only []
      split
      · rename_i hcond
        have h2 : ∀ x ∈ shards.set i
            ⟨alErase (shards.getD i ⟨[], [], []⟩).data k2,
              alErase (shards.getD i ⟨[], [], []⟩).expiry k2,
              (shards.getD i ⟨[], [], []⟩).access⟩, GoodShard x := by
          intro x hx
          rcases List.mem_or_eq_of_mem_set hx with h1 | h1
          · exact h x h1
          · exact h1 ▸ goodShard_eraseDataExpiry _ k2 (goodShard_getD shards i h)
        rcases ih _ h2 k j with h1 | h1
        · rw [h1, getD_set_shard]
          split
          · rename_i hc
            by_cases hk : k = k2
            · subst hk
              exact Or.inr (alGet_alErase_self _ _ (goodShard_getD shards i h).1.1)
            · left
              rw [hc.1]
              exact alGet_alErase_ne _ _ _ hk
          · exact Or.inl rfl
        · exact Or.inr h1
      · exact ih _ h k j
    · exact Or.inl rfl

theorem stateData_cleanupExpired_or (cfg : EngineCfg) (now : Nat)
    (s : EngineState) (k : String) (hG : GoodState s) :
    stateData cfg (cleanupExpired now s) k = stateData cfg s k ∨
      stateData cfg (cleanupExpired now s) k = none :=
  stateData_cleanupGo_or now s.heap s.shards hG k (shardOf cfg k)
theorem engineGetLive_fst (now : Nat) (k : String) (i : Nat)
    (s : EngineState) :
    (engineGetLive now k i s).1 = alGet (getShard s i).data k := by
  unfold engineGetLive
  simp only []
  split <;> rfl

theorem engineGet_fst_live (cfg : EngineCfg) (t : Nat) (k : String)
    (s : EngineState) (hlive : LiveAt (stateExpiry cfg s k) t) :
    (engineGet cfg t k s).1 = stateData cfg s k := by
  unfold engineGet
  simp only []
  split
  · rename_i dl hdl
    have h2 : stateExpiry cfg s k = some dl := hdl
    rw [h2] at hlive
    have hlt : t < dl := hlive
    rw [if_neg (by omega)]
    exact engineGetLive_fst t k _ s
  · exact engineGetLive_fst t k _ s

theorem stateData_applyOp_or (cfg : EngineCfg) (s : EngineState)
    (top : Nat × EngineOp) (k : String) (hG : GoodState s)
    (hns : isSetTo k top.2 = false) :
    stateData cfg (applyOp cfg s top) k = stateData cfg s k ∨
      stateData cfg (applyOp cfg s top) k = none := by
  obtain ⟨now, op⟩ := top
  cases op with
  | set k2 v2 ttl =>
    have hne : k2 ≠ k := by
      intro he
      subst he
      simp [isSetTo] at hns
    exact stateData_engineSet_other_or cfg now k2 v2 ttl s k hG hne
  | get k2 => exact stateData_engineGet_or cfg now k2 s k hG
  | del k2 => exact stateData_engineDelete_or cfg k2 s k hG
  | existsQ k2 => exact stateData_engineExists_or cfg now k2 s k hG
  | expireOp k2 t => exact Or.inl (stateData_engineExpire cfg now k2 t s k)
  | ttlOp k2 => exact Or.inl rfl
  | keysOp p => exact Or.inl rfl
  | dbsizeOp => exact Or.inl rfl
  | flushOp => exact Or.inr (stateData_engineFlush cfg s k)
  | cleanupOp => exact stateData_cleanupExpired_or cfg now s k hG

theorem stateData_applyOp_frame (cfg : EngineCfg) (s : EngineState)
    (top : Nat × EngineOp) (k : String) (v : String) (hG : GoodState s)
    (hv : stateData cfg s k = some v) (hns : isSetTo k top.2 = false)
    (hkeep : (stateData cfg (applyOp cfg s top) k).isSome) :
    stateData cfg (applyOp cfg s top) k = some v := by
  rcases stateData_applyOp_or cfg s top k hG hns with h1 | h1
  · rw [h1, hv]
  · rw [h1] at hkeep
    simp at hkeep

theorem stateData_applyTrace_frame (cfg : EngineCfg) (k : String) (v : String) :
    ∀ (tops : List (Nat × EngineOp)) (s : EngineState), GoodState s →
    stateData cfg s k = some v →
    tops.all (fun top => !isSetTo k top.2) = true →
    noRemoval cfg k s tops = true →
    stateData cfg (applyTrace cfg s tops) k = some v := by
  intro tops
  induction tops with
  | nil => exact fun s _ hv _ _ => hv
  | cons top rest ih =>
    intro s hG hv hall hnr
    rw [List.all_cons, Bool.and_eq_true] at hall
    unfold noRemoval at hnr
    rw [Bool.and_eq_true] at hnr
    have hns : isSetTo k top.2 = false := by
      have h3 := hall.1
      cases hb : isSetTo k top.2
      · rfl
      · rw [hb] at h3
        simp at h3
    have h1 : stateData cfg (applyOp cfg s top) k = some v :=
      stateData_applyOp_frame cfg s top k v hG hv hns hnr.1
    exact ih (applyOp cfg s top) (goodState_applyOp cfg s top hG) h1 hall.2 hnr.2

/-- C1: after `SET k v` on a well-formed state, provided the SET itself did
not evict `k` (the spec assumes no eviction of `k`), no later operation in
the trace is a `SET` of `k`, no later operation removes `k`'s entry (no
`DEL k`, no lazy or background expiration of `k`, no LRU eviction of `k` —
the spec's side conditions), and `k`'s stored deadline has not passed at
read time, then `GET k` returns exactly `v`. -/
theorem C1_set_then_get (cfg : EngineCfg) (now : Nat) (k v : String)
    (ttl : Option Nat) (s : EngineState) (tops : List (Nat × EngineOp))
    (tGet : Nat) (hv : v ≠ "") (hG : GoodState s)
    (hlen : s.shards.length = LOCK_STRIPE_COUNT)
    (hsurv : (stateData cfg (engineSet cfg now k v ttl s) k).isSome)
    (hnoset : tops.all (fun top => !isSetTo k top.2) = true)
    (hnorem : noRemoval cfg k (engineSet cfg now k v ttl s) tops = true)
    (hlive : LiveAt (stateExpiry cfg
      (applyTrace cfg (engineSet cfg now k v ttl s) tops) k) tGet) :
    (engineGet cfg tGet k
      (applyTrace cfg (engineSet cfg now k v ttl s) tops)).1 = some v := by
  have hi : shardOf cfg k < s.shards.length := by
    rw [hlen]
    exact Nat.mod_lt _ (by decide)
  have h1 := stateData_engineSet_isSome cfg now k v ttl s hG hi hsurv
  have hG1 := goodState_engineSet cfg now k v ttl s hG
  have h2 := stateData_applyTrace_frame cfg k v tops _ hG1 h1 hnoset hnorem
  rw [engineGet_fst_live cfg tGet k _ hlive, h2]

theorem C1_set_then_get_witness :
    (engineGet cfgW 3 ("a")
      (applyTrace cfgW (engineSet cfgW 0 ("a") ("v") (some 10) initState)
        [(1, EngineOp.get ("a")), (2, EngineOp.ttlOp ("a"))])).1 =
      some ("v") :=
  C1_set_then_get cfgW 0 ("a") ("v") (some 10) initState
    [(1, EngineOp.get ("a")), (2, EngineOp.ttlOp ("a"))] 3
    (by decide) (by decide) (by decide) (by decide) (by decide) (by decide)
    (by decide)
/-!
## The `RedisLite` store (`api/redislite.py`) and the TCP command layer

`RedisLite` is the store the TCP server serves.  Its per-shard maps are
plain dicts (`_access_times` maps key to last-access time).  The statistics
relevant to the claims are `total_memory_bytes` — recomputed only by the
periodic `_update_memory_stats`, hence stale during `set` — and
`evictions_total`.
-/

structure RLState where
  shards : List Shard
  heap : List (Nat × String × Nat)
  statsMemory : Nat
  evictions : Nat
deriving DecidableEq

/-- Construction parameters and ambient functions of `RedisLite`:
`max_memory_bytes`, `eviction_policy`, `_calculate_key_memory` (the
`sys.getsizeof` sum) and the process `hash`. -/
structure RLCfg where
  maxMemoryBytes : Nat
  evictionPolicy : String
  pairSize : String → String → Nat
  pyhash : String → Nat

/-- `RedisLite._get_shard_id`. -/
def rlShardOf (cfg : RLCfg) (k : String) : Nat :=
  cfg.pyhash k % LOCK_STRIPE_COUNT

def getRlShard (s : RLState) (i : Nat) : Shard := s.shards.getD i ⟨[], [], []⟩

def setRlShard (s : RLState) (i : Nat) (sh : Shard) : RLState :=
  { s with shards := s.shards.set i sh }

/-- Python `min(items, key=lambda x: x[1])`: the first pair with minimal
second component (`min` keeps the earlier of equal elements). -/
def pyMinByVal : AList Nat → Option (String × Nat)
  | [] => none
  | p :: t => some (t.foldl (fun b q => if q.2 < b.2 then q else b) p)

/-- `RedisLite._evict_lru_key`: nothing happens on an empty shard; the LRU
key is the access-time argmin; the `if lru_key` guard also drops a `None`
result and the empty-string key (falsy in Python). -/
def rlEvictLruKey (i : Nat) (s : RLState) : RLState :=
  let sh := getRlShard s i
  if sh.data = [] then s
  else
    match (pyMinByVal sh.access).map Prod.fst with
    | none => s
    | some k =>
      if k ≠ "" ∧ (alGet sh.data k).isSome then
        { setRlShard s i
            ⟨alErase sh.data k, alErase sh.expiry k, alErase sh.access k⟩ with
          evictions := s.evictions + 1 }
      else s

/-- `RedisLite.set`: the memory check runs against the stale
`total_memory_bytes` statistic *before* the store, and may evict from the
key's shard. -/
def rlSet (cfg : RLCfg) (now : Nat) (k v : String) (ttl : Option Nat)
    (s : RLState) : RLState :=
  let i := rlShardOf cfg k
  let keyMem := cfg.pairSize k v
  let s := if s.statsMemory + keyMem > cfg.maxMemoryBytes ∧
      cfg.evictionPolicy = "lru" then rlEvictLruKey i s else s
  let sh := getRlShard s i
  let sh := { sh with data := alSet sh.data k v, access := alSet sh.access k now }
  match ttl with
  | some t =>
    { setRlShard s i { sh with expiry := alSet sh.expiry k (now + t) } with
        heap := heapPush s.heap (now + t, k, i) }
  | none => setRlShard s i { sh with expiry := alErase sh.expiry k }

/-- `RedisLite.get`: miss on absent key; lazy deletion of an expired key
(all three maps); otherwise an LRU touch and the value. -/
def rlGet (cfg : RLCfg) (now : Nat) (k : String) (s : RLState) :
    Option String × RLState :=
  let i := rlShardOf cfg k
  let sh := getRlShard s i
  match alGet sh.data k with
  | none => (none, s)
  | some v =>
    match alGet sh.expiry k with
    | some dl =>
      if now ≥ dl then
        (none, setRlShard s i
          ⟨alErase sh.data k, alErase sh.expiry k, alErase sh.access k⟩)
      else (some v, setRlShard s i { sh with access := alSet sh.access k now })
    | none => (some v, setRlShard s i { sh with access := alSet sh.access k now })

/-- `RedisLite.exists`: lazy deletion of an expired key, no LRU touch. -/
def rlExists (cfg : RLCfg) (now : Nat) (k : String) (s : RLState) :
    Bool × RLState :=
  let i := rlShardOf cfg k
  let sh := getRlShard s i
  if (alGet sh.data k).isSome then
    match alGet sh.expiry k with
    | some dl =>
      if now ≥ dl then
        (false, setRlShard s i
          ⟨alErase sh.data k, alErase sh.expiry k, alErase sh.access k⟩)
      else (true, s)
    | none => (true, s)
  else (false, s)

/-- `RedisLite.ttl`: `-2` missing, `-1` no TTL, else the clamped remaining
time; the state is never modified — an expired entry stays. -/
def rlTtl (cfg : RLCfg) (now : Nat) (k : String) (s : RLState) : Int :=
  let sh := getRlShard s (rlShardOf cfg k)
  if (alGet sh.data k).isSome then
    match alGet sh.expiry k with
    | none => -1
    | some dl => max 0 ((dl : Int) - now)
  else -2

/-- The per-shard body of `RedisLite.keys`: skip expired keys, then the
"simple pattern matching" `pattern == "*" or key == pattern`. -/
def rlLiveKeysShard (now : Nat) (p : String) (sh : Shard) : List String :=
  (sh.data.map Prod.fst).filter (fun k =>
    (match alGet sh.expiry k with
     | some dl => decide (now < dl)
     | none => true) && (p == "*" || k == p))

/-- `RedisLite.keys`. -/
def rlKeys (now : Nat) (p : String) (s : RLState) : List String :=
  (s.shards.map (rlLiveKeysShard now p)).flatten

/-- `RedisProtocolHandler._cmd_expire` of `api/tcp_server.py`: `EXPIRE` is
implemented as `exists`, then `get`, then a re-`set` of the value with the
new TTL. -/
def cmdExpire (cfg : RLCfg) (now : Nat) (k : String) (ttl : Nat)
    (s : RLState) : Int × RLState :=
  let r1 := rlExists cfg now k s
  if r1.1 then
    let r2 := rlGet cfg now k r1.2
    match r2.1 with
    | some v => (1, rlSet cfg now k v (some ttl) r2.2)
    | none => (0, r2.2)
  else (0, r1.2)

theorem engineGet_expired_eq (cfg : EngineCfg) (now : Nat) (k : String)
    (s : EngineState) (dl : Nat) (hdl : stateExpiry cfg s k = some dl)
    (hexp : dl ≤ now) :
    engineGet cfg now k s =
      (none, { setShard s (shardOf cfg k)
        ⟨alErase (getShard s (shardOf cfg k)).data k,
          alErase (getShard s (shardOf cfg k)).expiry k,
          alErase (getShard s (shardOf cfg k)).access k⟩ with
        stats := { s.stats with expirations := s.stats.expirations + 1 } }) := by
  unfold engineGet
  simp only []
  split
  · rename_i dl2 hdl2
    have h2 : stateExpiry cfg s k = some dl2 := hdl2
    rw [hdl] at h2
    obtain rfl : dl = dl2 := Option.some_inj.mp h2
    rw [if_pos (show now ≥ dl from hexp)]
    rfl
  · rename_i hdl2
    have h2 : stateExpiry cfg s k = none := hdl2
    rw [hdl] at h2
    exact absurd h2 (by simp)

theorem engineExists_expired_eq (cfg : EngineCfg) (now : Nat) (k : String)
    (s : EngineState) (dl : Nat) (hdl : stateExpiry cfg s k = some dl)
    (hexp : dl ≤ now) (hpresent : (stateData cfg s k).isSome) :
    engineExists cfg now k s =
      (false, setShard s (shardOf cfg k)
        ⟨alErase (getShard s (shardOf cfg k)).data k,
          alErase (getShard s (shardOf cfg k)).expiry k,
          (getShard s (shardOf cfg k)).access⟩) := by
  unfold engineExists
  simp only []
  split
  · rename_i dl2 hdl2
    have h2 : stateExpiry cfg s k = some dl2 := hdl2
    rw [hdl] at h2
    obtain rfl : dl = dl2 := Option.some_inj.mp h2
    rw [if_pos ⟨hpresent, show now ≥ dl from hexp⟩]
  · rename_i hdl2
    have h2 : stateExpiry cfg s k = none := hdl2
    rw [hdl] at h2
    exact absurd h2 (by simp)

theorem engineTtl_expired_fst (cfg : EngineCfg) (now : Nat) (k : String)
    (s : EngineState) (dl : Nat) (hdl : stateExpiry cfg s k = some dl)
    (hexp : dl ≤ now) (hpresent : (stateData cfg s k).isSome) :
    (engineTtl cfg now k s).1 = some 0 := by
  unfold engineTtl
  simp only []
  rw [if_pos (show (alGet (getShard s (shardOf cfg k)).data k).isSome = true
    from hpresent)]
  rw [show alGet (getShard s (shardOf cfg k)).expiry k = some dl from hdl]
  show some (max 0 ((dl : Int) - now)) = some 0
  rw [max_eq_left (by omega)]

theorem stateData_after_erase_self (cfg : EngineCfg) (s : EngineState)
    (k : String) (e : AList Nat) (a : AList Nat) (s2 : EngineState)
    (h2 : s2.shards = (setShard s (shardOf cfg k)
      ⟨alErase (getShard s (shardOf cfg k)).data k, e, a⟩).shards)
    (hG : GoodState s) (hi : shardOf cfg k < s.shards.length) :
    stateData cfg s2 k = none := by
  rw [stateData_congr cfg s2 (setShard s (shardOf cfg k)
    ⟨alErase (getShard s (shardOf cfg k)).data k, e, a⟩) k h2]
  unfold stateData
  rw [getShard_setShard, if_pos ⟨rfl, hi⟩]
  exact alGet_alErase_self _ _ (goodShard_getShard s _ hG).1.1

/-- C6 (amended): on a key whose deadline has passed, `GET` and `EXISTS`
lazily delete the entry and report it missing, but `TTL` — both
`HashMapEngine.ttl` and `RedisLite.ttl` — deletes nothing and reports a
clamped remaining time of `0`, not the missing-key marker `-2`. -/
theorem C6_lazy_expiry_semantics (cfg : EngineCfg) (now : Nat) (k : String)
    (s : EngineState) (dl : Nat) (hG : GoodState s)
    (hlen : s.shards.length = LOCK_STRIPE_COUNT)
    (hdl : stateExpiry cfg s k = some dl) (hexp : dl ≤ now)
    (hpresent : (stateData cfg s k).isSome) :
    (engineGet cfg now k s).1 = none ∧
    stateData cfg (engineGet cfg now k s).2 k = none ∧
    (engineExists cfg now k s).1 = false ∧
    stateData cfg (engineExists cfg now k s).2 k = none ∧
    (engineTtl cfg now k s).1 = some 0 ∧
    (engineTtl cfg now k s).2 = s ∧
    ∀ (rcfg : RLCfg) (rs : RLState) (rdl : Nat),
      (alGet (getRlShard rs (rlShardOf rcfg k)).data k).isSome →
      alGet (getRlShard rs (rlShardOf rcfg k)).expiry k = some rdl →
      rdl ≤ now → rlTtl rcfg now k rs = 0 := by
  have hi : shardOf cfg k < s.shards.length := by
    rw [hlen]
    exact Nat.mod_lt _ (by decide)
  refine ⟨?_, ?_, ?_, ?_, ?_, rfl, ?_⟩
  · rw [engineGet_expired_eq cfg now k s dl hdl hexp]
  · rw [engineGet_expired_eq cfg now k s dl hdl hexp]
    exact stateData_after_erase_self cfg s k _ _ _ rfl hG hi
  · rw [engineExists_expired_eq cfg now k s dl hdl hexp hpresent]
  · rw [engineExists_expired_eq cfg now k s dl hdl hexp hpresent]
    exact stateData_after_erase_self cfg s k _ _ _ rfl hG hi
  · exact engineTtl_expired_fst cfg now k s dl hdl hexp hpresent
  · intro rcfg rs rdl hrp hre hrexp
    unfold rlTtl
    simp only []
    rw [if_pos hrp, hre]
    show max 0 ((rdl : Int) - now) = 0
    rw [max_eq_left (by omega)]

/-- The engine state holding exactly `SET a v EX 5` issued at time 0. -/
def sC6 : EngineState := engineSet cfgW 0 ("a") ("v") (some 5) initState

theorem C6_counterexample_ttl_keeps_expired :
    alGet (getShard sC6 0).expiry ("a") = some 5 ∧
    (stateData cfgW sC6 ("a")).isSome ∧
    (engineTtl cfgW 10 ("a") sC6).1 = some 0 ∧
    (engineTtl cfgW 10 ("a") sC6).2 = sC6 := by decide

theorem C6_lazy_expiry_semantics_witness :
    (engineGet cfgW 10 ("a") sC6).1 = none ∧
    stateData cfgW (engineGet cfgW 10 ("a") sC6).2 ("a") = none ∧
    (engineExists cfgW 10 ("a") sC6).1 = false ∧
    stateData cfgW (engineExists cfgW 10 ("a") sC6).2 ("a") = none ∧
    (engineTtl cfgW 10 ("a") sC6).1 = some 0 ∧
    (engineTtl cfgW 10 ("a") sC6).2 = sC6 ∧
    ∀ (rcfg : RLCfg) (rs : RLState) (rdl : Nat),
      (alGet (getRlShard rs (rlShardOf rcfg ("a"))).data ("a")).isSome →
      alGet (getRlShard rs (rlShardOf rcfg ("a"))).expiry ("a") = some rdl →
      rdl ≤ 10 → rlTtl rcfg 10 ("a") rs = 0 :=
  C6_lazy_expiry_semantics cfgW 10 ("a") sC6 5 (by decide) (by decide)
    (by decide) (by decide) (by decide)

/-- Test configuration for the `RedisLite` store: every key in shard 0,
pair memory is the combined length, a 10-byte limit. -/
def rlCfgW : RLCfg := ⟨10, "lru", fun k v => k.length + v.length, fun _ => 0⟩

/-- Shard 0 holds `a ↦ x` (accessed at 0) and `b ↦ y` (accessed at 1); the
memory statistic (100 bytes) exceeds the 10-byte limit. -/
def rlStateW : RLState :=
  ⟨[⟨[(("a"), ("x")), (("b"), ("y"))], [], [(("a"), 0), (("b"), 1)]⟩], [], 100, 0⟩

/-- C7: `EXPIRE b 10` over TCP re-`SET`s `b`, and the `set`'s stale memory
check evicts the unrelated LRU key `a` from the same shard — `EXPIRE` does
not modify only `b`'s deadline. -/
theorem C7_expire_evicts_unrelated_key :
    alGet (getRlShard rlStateW 0).data ("a") = some ("x") ∧
    (cmdExpire rlCfgW 5 ("b") 10 rlStateW).1 = 1 ∧
    alGet (getRlShard (cmdExpire rlCfgW 5 ("b") 10 rlStateW).2 0).data ("a") =
      none ∧
    (getRlShard (cmdExpire rlCfgW 5 ("b") 10 rlStateW).2 0).data =
      [(("b"), ("y"))] ∧
    (cmdExpire rlCfgW 5 ("b") 10 rlStateW).2.evictions = 1 := by decide

theorem mem_liveKeysShard (now : Nat) (p : String) (sh : Shard) (k : String) :
    k ∈ liveKeysShard now p sh ↔
      (alGet sh.data k).isSome ∧ LiveAt (alGet sh.expiry k) now ∧
        globMatch p.data k.data = true := by
  unfold liveKeysShard
  rw [List.mem_filter, Bool.and_eq_true]
  constructor
  · rintro ⟨hm, h1, h2⟩
    refine ⟨(mem_alKeys_iff_isSome sh.data k).mp hm, ?_, h2⟩
    cases halg : alGet sh.expiry k with
    | none => trivial
    | some dl =>
      rw [halg] at h1
      exact of_decide_eq_true h1
  · rintro ⟨h1, h2, h3⟩
    refine ⟨(mem_alKeys_iff_isSome sh.data k).mpr h1, ?_, h3⟩
    cases halg : alGet sh.expiry k with
    | none => rfl
    | some dl =>
      rw [halg] at h2
      exact decide_eq_true h2

theorem mem_engineKeys (now : Nat) (p : String) (s : EngineState) (k : String) :
    k ∈ engineKeys now p s ↔ ∃ sh ∈ s.shards,
      (alGet sh.data k).isSome ∧ LiveAt (alGet sh.expiry k) now ∧
        globMatch p.data k.data = true := by
  unfold engineKeys
  rw [List.mem_flatten]
  constructor
  · rintro ⟨l, hl, hkl⟩
    rcases List.mem_map.mp hl with ⟨sh, hsh, rfl⟩
    exact ⟨sh, hsh, (mem_liveKeysShard now p sh k).mp hkl⟩
  · rintro ⟨sh, hsh, hk⟩
    exact ⟨liveKeysShard now p sh, List.mem_map_of_mem _ hsh,
      (mem_liveKeysShard now p sh k).mpr hk⟩

theorem mem_rlLiveKeysShard (now : Nat) (p : String) (sh : Shard)
    (k : String) :
    k ∈ rlLiveKeysShard now p sh ↔
      (alGet sh.data k).isSome ∧ LiveAt (alGet sh.expiry k) now ∧
        (p = "*" ∨ k = p) := by
  unfold rlLiveKeysShard
  rw [List.mem_filter, Bool.and_eq_true]
  constructor
  · rintro ⟨hm, h1, h2⟩
    rw [Bool.or_eq_true, beq_iff_eq, beq_iff_eq] at h2
    refine ⟨(mem_alKeys_iff_isSome sh.data k).mp hm, ?_, h2⟩
    cases halg : alGet sh.expiry k with
    | none => trivial
    | some dl =>
      rw [halg] at h1
      exact of_decide_eq_true h1
  · rintro ⟨h1, h2, h3⟩
    refine ⟨(mem_alKeys_iff_isSome sh.data k).mpr h1, ?_, ?_⟩
    · cases halg : alGet sh.expiry k with
      | none => rfl
      | some dl =>
        rw [halg] at h2
        exact decide_eq_true h2
    · rw [Bool.or_eq_true, beq_iff_eq, beq_iff_eq]
      exact h3

theorem mem_rlKeys (now : Nat) (p : String) (rs : RLState) (k : String) :
    k ∈ rlKeys now p rs ↔ ∃ sh ∈ rs.shards,
      (alGet sh.data k).isSome ∧ LiveAt (alGet sh.expiry k) now ∧
        (p = "*" ∨ k = p) := by
  unfold rlKeys
  rw [List.mem_flatten]
  constructor
  · rintro ⟨l, hl, hkl⟩
    rcases List.mem_map.mp hl with ⟨sh, hsh, rfl⟩
    exact ⟨sh, hsh, (mem_rlLiveKeysShard now p sh k).mp hkl⟩
  · rintro ⟨sh, hsh, hk⟩
    exact ⟨rlLiveKeysShard now p sh, List.mem_map_of_mem _ hsh,
      (mem_rlLiveKeysShard now p sh k).mpr hk⟩

/-- C8 (amended): `HashMapEngine.keys` returns exactly the live keys that
match the pattern under `fnmatch` glob semantics (`*`, `?`, `[class]`),
skipping lazily-expired keys; but `RedisLite.keys` — the store the TCP
`KEYS` command queries — returns a key iff it is live and the pattern is
the literal string `"*"` or equals the key, so glob patterns other than
the bare star match nothing but themselves. -/
theorem C8_keys_pattern_semantics :
    (∀ (now : Nat) (p : String) (s : EngineState) (k : String),
      k ∈ engineKeys now p s ↔ ∃ sh ∈ s.shards,
        (alGet sh.data k).isSome ∧ LiveAt (alGet sh.expiry k) now ∧
          globMatch p.data k.data = true) ∧
    (∀ (now : Nat) (p : String) (rs : RLState) (k : String),
      k ∈ rlKeys now p rs ↔ ∃ sh ∈ rs.shards,
        (alGet sh.data k).isSome ∧ LiveAt (alGet sh.expiry k) now ∧
          (p = "*" ∨ k = p)) :=
  ⟨mem_engineKeys, mem_rlKeys⟩

/-- A `RedisLite` state whose only key is `ab`, never expiring. -/
def rlKeysW : RLState := ⟨[⟨[(("ab"), ("v"))], [], [(("ab"), 0)]⟩], [], 0, 0⟩

theorem C8_counterexample_keys_not_glob :
    globMatch ("a*").data ("ab").data = true ∧
    (alGet (getRlShard rlKeysW 0).data ("ab")).isSome ∧
    rlKeys 0 ("a*") rlKeysW = [] :=
  ⟨by simp [globMatch], by decide, by decide⟩

/-!
## Replication (`api/replication_psync.py`)

Offsets are integers (`-1` marks an unknown offset); backlog records are
byte strings.
-/

inductive SyncKind where
  | fullsync
  | psync
deriving DecidableEq

/-- The decision of `ReplicationMasterPSYNC.handle_sync_request`: FULLSYNC
when the requested offset is `-1` or older than the backlog window
(`can_psync = requested_offset >= replication_offset - backlog_size_bytes`);
otherwise PSYNC.  No replication id is consulted — the request carries only
the replica's own name and its offset. -/
def handleSyncRequest (requestedOffset : Int)
    (replicationOffset backlogSizeBytes : Nat) : SyncKind :=
  if requestedOffset = -1 then .fullsync
  else if requestedOffset ≥ (replicationOffset : Int) - (backlogSizeBytes : Int)
    then .psync
  else .fullsync

/-- The sync decision as the specification words it (not as the code
computes it): FULLSYNC iff the known replication id differs from the
master's, or the known offset predates the backlog window. -/
def specSyncDecision (knownReplId masterReplId : String) (knownOffset : Int)
    (replicationOffset backlogSizeBytes : Nat) : SyncKind :=
  if knownReplId ≠ masterReplId ∨
      knownOffset < (replicationOffset : Int) - (backlogSizeBytes : Int)
    then .fullsync
  else .psync

/-- The send loop of `_handle_psync`: `bytes_sent` sums the lengths of all
records seen so far; a record is written iff `bytes_sent ≥ skip_bytes`
when it is reached. -/
def psyncStreamGo (skip : Int) : List (List Nat) → Int → List (List Nat)
  | [], _ => []
  | c :: rest, sent =>
    (if sent ≥ skip then [c] else []) ++
      psyncStreamGo skip rest (sent + c.length)

/-- `_handle_psync`: stream backlog records from the requested offset
(`skip_bytes = requested_offset - (replication_offset - backlog_size_bytes)`). -/
def psyncStream (backlog : List (List Nat)) (requested : Int)
    (replicationOffset backlogSizeBytes : Nat) : List (List Nat) :=
  psyncStreamGo
    (requested - ((replicationOffset : Int) - (backlogSizeBytes : Int)))
    backlog 0

/-- Backlog records annotated with absolute start offsets, the first record
starting at `base` (the backlog window's start offset). -/
def annotateOffsets : List (List Nat) → Int → List (Int × List Nat)
  | [], _ => []
  | c :: rest, base => (base, c) :: annotateOffsets rest (base + c.length)

theorem psyncStreamGo_annotate (skip base : Int) :
    ∀ (l : List (List Nat)) (sent : Int),
    psyncStreamGo skip l sent =
      ((annotateOffsets l (base + sent)).filter
        (fun q => decide (base + skip ≤ q.1))).map Prod.snd := by
  intro l
  induction l with
  | nil => exact fun sent => rfl
  | cons c rest ih =>
    intro sent
    unfold psyncStreamGo annotateOffsets
    by_cases hc : sent ≥ skip
    · rw [if_pos hc, List.filter_cons_of_pos (by
        simp only [decide_eq_true_eq]
        omega)]
      rw [List.map_cons, ih (sent + (c.length : Int)), Int.add_assoc]
      rfl
    · rw [if_neg hc, List.filter_cons_of_neg (by
        simp only [decide_eq_true_eq]
        omega)]
      rw [ih (sent + (c.length : Int)), Int.add_assoc]
      rfl

theorem psyncStream_sends (backlog : List (List Nat)) (requested : Int)
    (ro bs : Nat) :
    psyncStream backlog requested ro bs =
      ((annotateOffsets backlog ((ro : Int) - (bs : Int))).filter
        (fun q => decide (requested ≤ q.1))).map Prod.snd := by
  unfold psyncStream
  rw [psyncStreamGo_annotate
    (requested - ((ro : Int) - (bs : Int))) ((ro : Int) - (bs : Int)) backlog 0]
  have h1 : (ro : Int) - (bs : Int) +
      (requested - ((ro : Int) - (bs : Int))) = requested := by ring
  have h2 : (ro : Int) - (bs : Int) + 0 = (ro : Int) - (bs : Int) := by ring
  rw [h1, h2]

/-- C5 (amended): the master's sync decision depends only on the offset —
FULLSYNC iff the requested offset is `-1` or lies before the backlog
window (`replication_offset - backlog_size_bytes`); the replication id is
never consulted (the request carries none).  A granted PSYNC streams
exactly the backlog records whose absolute start offset is at least the
requested offset. -/
theorem C5_sync_decision (ro bs : Nat) :
    (∀ (o : Int), handleSyncRequest o ro bs = SyncKind.fullsync ↔
      (o = -1 ∨ o < (ro : Int) - (bs : Int))) ∧
    (∀ (backlog : List (List Nat)) (o : Int),
      psyncStream backlog o ro bs =
        ((annotateOffsets backlog ((ro : Int) - (bs : Int))).filter
          (fun q => decide (o ≤ q.1))).map Prod.snd) := by
  refine ⟨fun o => ?_, fun backlog o => psyncStream_sends backlog o ro bs⟩
  unfold handleSyncRequest
  by_cases h1 : o = -1
  · simp [h1]
  · rw [if_neg h1]
    by_cases h2 : o ≥ (ro : Int) - (bs : Int)
    · rw [if_pos h2]
      constructor
      · intro h
        exact absurd h (by decide)
      · rintro (h | h)
        · exact absurd h h1
        · exact absurd h (by omega)
    · rw [if_neg h2]
      constructor
      · intro _
        right
        omega
      · intro _
        rfl

theorem C5_counterexample_replid_ignored :
    handleSyncRequest 5 10 10 = SyncKind.psync ∧
    specSyncDecision ("replica-run-1") ("replica-run-2") 5 10 10 =
      SyncKind.fullsync := by decide

/-!
## Shard stability across restarts

`HashMapEngine._get_shard` and `RedisLite._get_shard_id` are
`hash(key) % LOCK_STRIPE_COUNT` with Python's built-in `hash`.  Modelled
from the spec and the Python language documentation: for `str` keys,
`hash` is salted with a per-process value (`PYTHONHASHSEED`), so distinct
runs of the program compute different hash functions.  The embedding keeps
the engine's hash ambient (`EngineCfg.pyhash`); `pyHashSalted seed` is a
stand-in for that per-run family — only its dependence on the seed is
used, not CPython's exact SipHash. -/
def pyHashSalted (seed : Nat) (k : String) : Nat :=
  (k.data.map Char.toNat).foldl
    (fun h c => (h * 1000003 + c + seed) % 18446744073709551616)
    (seed % 18446744073709551616)

/-- C9: under two process hash seeds (two runs of the program), the same
key is assigned to different shards — `hash(key) % 16` is not a function
of the key alone, so a key's shard is not stable across restarts. -/
theorem C9_shard_not_stable_across_runs :
    shardOf ⟨0, ("lru"), fun v => v.length, pyHashSalted 0⟩ ("a") ≠
      shardOf ⟨0, ("lru"), fun v => v.length, pyHashSalted 1⟩ ("a") := by
  decide

end RedisKV
